import Mathlib

/- Formal model of the serial command protocol implemented in
   include/protocol.h and src/src/main.cpp of the LedStripController
   firmware.  Byte buffers handed to the parser are modelled as total
   functions from indices to byte values (a C pointer into memory), and the
   fixed-size character arrays inside the packet structure likewise; a store
   or load that the C code performs outside the intended index range of an
   array is therefore visible as an access of the modelling function outside
   that range.  Machine integers are modelled as Nat with an explicit
   reduction modulo 2^8 or 2^16 exactly where the C types (uint8_t,
   uint16_t, int16_t) can overflow or convert. -/

/-- Maximum length of a packet buffer (MAX_PROTO_PACKET_LEN). -/
def MAX_PROTO_PACKET_LEN : Nat := 256

/-- Maximum length of a command (MAX_PROTO_CMD). -/
def MAX_PROTO_CMD : Nat := 10

/-- Maximum number of parameters for any one command packet (MAX_PROTO_PARAM_COUNT). -/
def MAX_PROTO_PARAM_COUNT : Nat := 4

/-- Maximum number of characters for any one parameter (MAX_PROTO_PARAM_LEN). -/
def MAX_PROTO_PARAM_LEN : Nat := 50

/-- Missing expected STX character. -/
def ERR_PROTO_CP_MISSING_STX : Int := -101

/-- Missing expected ETX character. -/
def ERR_PROTO_CP_MISSING_ETX : Int := -102

/-- Missing expected PSC character. -/
def ERR_PROTO_CP_MISSING_PSC : Int := -103

/-- Missing expected framing character. -/
def ERR_PROTO_CP_MISSING_EFC : Int := -104

/-- Command buffer overflow. -/
def ERR_PROTO_CP_CMD_OVERFLOW : Int := -105

/-- CRC16 mismatch. -/
def ERR_PROTO_CP_CRC16_MISMATCH : Int := -110

/-- CRC16 missing. -/
def ERR_PROTO_CP_MISSING_CRC16 : Int := -111

/-- Too many params attempted in response packet. -/
def ERR_PROTO_RB_TOO_MANY_PARAMS : Int := -201

/-- Param buffer overflow. -/
def ERR_PROTO_RB_PARAM_OVERFLOW : Int := -202

/-- Start transmission character, the byte value of the opening bracket. -/
def PROTO_STX : Nat := 91

/-- End transmission character, the byte value of the closing bracket. -/
def PROTO_ETX : Nat := 93

/-- Param separator character, the byte value of the colon. -/
def PROTO_PSC : Nat := 58

/-- Carriage return character. -/
def PROTO_CR : Nat := 13

/-- Newline character. -/
def PROTO_NL : Nat := 10

/-- The 256-entry CRC16 lookup table of protocol.h. -/
def CRC16_table : List Nat := [
  0x0000, 0x1021, 0x2042, 0x3063, 0x4084, 0x50a5, 0x60c6, 0x70e7,
  0x8108, 0x9129, 0xa14a, 0xb16b, 0xc18c, 0xd1ad, 0xe1ce, 0xf1ef,
  0x1231, 0x0210, 0x3273, 0x2252, 0x52b5, 0x4294, 0x72f7, 0x62d6,
  0x9339, 0x8318, 0xb37b, 0xa35a, 0xd3bd, 0xc39c, 0xf3ff, 0xe3de,
  0x2462, 0x3443, 0x0420, 0x1401, 0x64e6, 0x74c7, 0x44a4, 0x5485,
  0xa56a, 0xb54b, 0x8528, 0x9509, 0xe5ee, 0xf5cf, 0xc5ac, 0xd58d,
  0x3653, 0x2672, 0x1611, 0x0630, 0x76d7, 0x66f6, 0x5695, 0x46b4,
  0xb75b, 0xa77a, 0x9719, 0x8738, 0xf7df, 0xe7fe, 0xd79d, 0xc7bc,
  0x48c4, 0x58e5, 0x6886, 0x78a7, 0x0840, 0x1861, 0x2802, 0x3823,
  0xc9cc, 0xd9ed, 0xe98e, 0xf9af, 0x8948, 0x9969, 0xa90a, 0xb92b,
  0x5af5, 0x4ad4, 0x7ab7, 0x6a96, 0x1a71, 0x0a50, 0x3a33, 0x2a12,
  0xdbfd, 0xcbdc, 0xfbbf, 0xeb9e, 0x9b79, 0x8b58, 0xbb3b, 0xab1a,
  0x6ca6, 0x7c87, 0x4ce4, 0x5cc5, 0x2c22, 0x3c03, 0x0c60, 0x1c41,
  0xedae, 0xfd8f, 0xcdec, 0xddcd, 0xad2a, 0xbd0b, 0x8d68, 0x9d49,
  0x7e97, 0x6eb6, 0x5ed5, 0x4ef4, 0x3e13, 0x2e32, 0x1e51, 0x0e70,
  0xff9f, 0xefbe, 0xdfdd, 0xcffc, 0xbf1b, 0xaf3a, 0x9f59, 0x8f78,
  0x9188, 0x81a9, 0xb1ca, 0xa1eb, 0xd10c, 0xc12d, 0xf14e, 0xe16f,
  0x1080, 0x00a1, 0x30c2, 0x20e3, 0x5004, 0x4025, 0x7046, 0x6067,
  0x83b9, 0x9398, 0xa3fb, 0xb3da, 0xc33d, 0xd31c, 0xe37f, 0xf35e,
  0x02b1, 0x1290, 0x22f3, 0x32d2, 0x4235, 0x5214, 0x6277, 0x7256,
  0xb5ea, 0xa5cb, 0x95a8, 0x8589, 0xf56e, 0xe54f, 0xd52c, 0xc50d,
  0x34e2, 0x24c3, 0x14a0, 0x0481, 0x7466, 0x6447, 0x5424, 0x4405,
  0xa7db, 0xb7fa, 0x8799, 0x97b8, 0xe75f, 0xf77e, 0xc71d, 0xd73c,
  0x26d3, 0x36f2, 0x0691, 0x16b0, 0x6657, 0x7676, 0x4615, 0x5634,
  0xd94c, 0xc96d, 0xf90e, 0xe92f, 0x99c8, 0x89e9, 0xb98a, 0xa9ab,
  0x5844, 0x4865, 0x7806, 0x6827, 0x18c0, 0x08e1, 0x3882, 0x28a3,
  0xcb7d, 0xdb5c, 0xeb3f, 0xfb1e, 0x8bf9, 0x9bd8, 0xabbb, 0xbb9a,
  0x4a75, 0x5a54, 0x6a37, 0x7a16, 0x0af1, 0x1ad0, 0x2ab3, 0x3a92,
  0xfd2e, 0xed0f, 0xdd6c, 0xcd4d, 0xbdaa, 0xad8b, 0x9de8, 0x8dc9,
  0x7c26, 0x6c07, 0x5c64, 0x4c45, 0x3ca2, 0x2c83, 0x1ce0, 0x0cc1,
  0xef1f, 0xff3e, 0xcf5d, 0xdf7c, 0xaf9b, 0xbfba, 0x8fd9, 0x9ff8,
  0x6e17, 0x7e36, 0x4e55, 0x5e74, 0x2e93, 0x3eb2, 0x0ed1, 0x1ef0]

/-- One step of the table driven CRC16: the body of crc16() in protocol.h,
with the uint16_t result reduced modulo 2^16 and the uint8_t data operand
reduced modulo 2^8 by the & 0xff mask. -/
def crc16 (crc data : Nat) : Nat :=
  (Nat.xor (CRC16_table.getD (Nat.xor (crc / 256) data % 256) 0) (crc * 256)) % 65536

/-- Loop body of crc16_buffer: fold crc16 over data[i] for fuel further
indices starting at i.  The fuel argument counts the remaining iterations
of the C for loop, which runs from start while i is below the stop bound. -/
def crc16_bufferGo (data : Nat → Nat) : Nat → Nat → Nat → Nat
  | 0, crc, _ => crc
  | fuel + 1, crc, i => crc16_bufferGo data fuel (crc16 crc (data i)) (i + 1)

/-- Model of crc16_buffer(crc, data, start, stop) of protocol.h: folds the
CRC step over data[start], ..., data[stop-1]. -/
def crc16_buffer (crc : Nat) (data : Nat → Nat) (start stop : Nat) : Nat :=
  crc16_bufferGo data (stop - start) crc start

/-- The proto_pkt_t structure of protocol.h.  The char arrays cmd[10] and
params[4][50] are modelled as total functions so that an out-of-range store
performed by the C code is visible at the corresponding function argument. -/
structure ProtoPkt where
  cmd : Nat → Nat
  params : Nat → Nat → Nat
  param_count : Nat
  crc16 : Nat

/-- Pointwise update of a one-dimensional byte array. -/
def updFn (f : Nat → Nat) (k v : Nat) : Nat → Nat :=
  fun j => if j = k then v else f j

/-- Pointwise update of a two-dimensional byte array. -/
def updFn2 (f : Nat → Nat → Nat) (a b v : Nat) : Nat → Nat → Nat :=
  fun x y => if x = a ∧ y = b then v else f x y

/-- A packet whose storage is all zero: the state produced by
proto_clear_pkt on any packet (restricted to the arrays' real extents). -/
def zeroPkt : ProtoPkt := ⟨fun _ => 0, fun _ _ => 0, 0, 0⟩

/-- Model of proto_clear_pkt: zero the cmd array, the param arrays, the
parameter count and the crc16 field. -/
def proto_clear_pkt (pkt : ProtoPkt) : ProtoPkt :=
  { cmd := fun i => if i < MAX_PROTO_CMD then 0 else pkt.cmd i,
    params := fun x y =>
      if x < MAX_PROTO_PARAM_COUNT ∧ y < MAX_PROTO_PARAM_LEN then 0 else pkt.params x y,
    param_count := 0,
    crc16 := 0 }

/-- A byte buffer whose contents are the given list; indices past the end of
the list read as zero (one fixed choice for the junk an out-of-range C read
would return). -/
def bufOfList (l : List Nat) : Nat → Nat := fun i => l.getD i 0

/-- Conversion of a uint16_t value (here: a Nat first reduced mod 2^16) to
int16_t, as the return statement of proto_parse_pkt_buffer performs on the
uint16_t index pbi. -/
def int16ofNat (n : Nat) : Int :=
  if n % 65536 < 32768 then ((n % 65536 : Nat) : Int)
  else ((n % 65536 : Nat) : Int) - 65536

/-- The STX search loop of proto_parse_pkt_buffer:
while(buffer[pbi++] != PROTO_STX && pbi < len) si++;
The fuel argument equals len - pbi - 1, the number of times the guard
pbi < len can still succeed after the post-increment. -/
def findStxGo (b : Nat → Nat) : Nat → Nat → Nat → Nat × Nat
  | 0, pbi, si => (pbi + 1, si)
  | fuel + 1, pbi, si =>
    if b pbi = PROTO_STX then (pbi + 1, si) else findStxGo b fuel (pbi + 1) (si + 1)

/-- The STX search of proto_parse_pkt_buffer starting at pbi = 0, si = 0;
returns the final (pbi, si). -/
def findStx (b : Nat → Nat) (len : Nat) : Nat × Nat :=
  findStxGo b (len - 1) 0 0

/-- The command name copying loop of proto_parse_pkt_buffer:
while(pbi < len && i < MAX_PROTO_CMD && buffer[pbi] != PSC && buffer[pbi] != ETX)
  pkt->cmd[i++] = buffer[pbi++];
The fuel argument equals len - pbi; returns the final (cmd, i, pbi). -/
def copyNameGo (b : Nat → Nat) : Nat → (Nat → Nat) → Nat → Nat → (Nat → Nat) × Nat × Nat
  | 0, cmd, i, pbi => (cmd, i, pbi)
  | fuel + 1, cmd, i, pbi =>
    if i < MAX_PROTO_CMD ∧ b pbi ≠ PROTO_PSC ∧ b pbi ≠ PROTO_ETX then
      copyNameGo b fuel (updFn cmd i (b pbi)) (i + 1) (pbi + 1)
    else (cmd, i, pbi)

/-- The command name copying loop with the C guard pbi < len expressed
through the fuel len - pbi. -/
def copyName (b : Nat → Nat) (len : Nat) (cmd : Nat → Nat) (i pbi : Nat) :
    (Nat → Nat) × Nat × Nat :=
  copyNameGo b (len - pbi) cmd i pbi

/-- The parameter copying inner loop of proto_parse_pkt_buffer:
while(pbi < len && pci < MAX_PROTO_PARAM_LEN && buffer[pbi] != PSC && buffer[pbi] != ETX)
  pkt->params[pkt->param_count][pci++] = buffer[pbi++];
The fuel argument equals len - pbi.  Since pci and pbi advance in lockstep
the loop is summarised by the updated params array together with the number
of bytes copied (the common increment of pci and pbi). -/
def copyParamGo (b : Nat → Nat) : Nat → (Nat → Nat → Nat) → Nat → Nat → Nat → (Nat → Nat → Nat) × Nat
  | 0, p, _, _, _ => (p, 0)
  | fuel + 1, p, slot, pci, pbi =>
    if pci < MAX_PROTO_PARAM_LEN ∧ b pbi ≠ PROTO_PSC ∧ b pbi ≠ PROTO_ETX then
      let r := copyParamGo b fuel (updFn2 p slot pci (b pbi)) slot (pci + 1) (pbi + 1)
      (r.1, r.2 + 1)
    else (p, 0)

/-- The parameter copying inner loop with the C guard pbi < len expressed
through the fuel len - pbi. -/
def copyParam (b : Nat → Nat) (len : Nat) (p : Nat → Nat → Nat) (slot pci pbi : Nat) :
    (Nat → Nat → Nat) × Nat :=
  copyParamGo b (len - pbi) p slot pci pbi

/-- One round of the do-while parameter loop body of
proto_parse_pkt_buffer: advance past the separator, run the inner copy
loop, write the terminating zero at pci (a store at
params[param_count][pci], which reaches index 50 when the copy loop fills
the slot), and increment the uint8_t param_count (mod 2^8).  Returns the
updated packet and the read index after the round. -/
def ppRound (b : Nat → Nat) (len : Nat) (pkt : ProtoPkt) (pbi : Nat) : ProtoPkt × Nat :=
  let cp := copyParam b len pkt.params pkt.param_count 0 (pbi + 1)
  let pkt1 : ProtoPkt :=
    { pkt with params := updFn2 cp.1 pkt.param_count cp.2 0, param_count := (pkt.param_count + 1) % 256 }
  (pkt1, pbi + 1 + cp.2)

/-- The do-while parameter loop of proto_parse_pkt_buffer: run ppRound,
repeat while pbi < len && buffer[pbi] != ETX && param_count <
MAX_PROTO_PARAM_COUNT.  The fuel only bounds the recursion depth: the loop
advances pbi by at least one per round, so fuel = len is always enough and
the zero-fuel branch, which exits the loop in the same state a failing
guard would, is never taken then. -/
def parseParamsGo (b : Nat → Nat) (len : Nat) : Nat → ProtoPkt → Nat → ProtoPkt × Nat
  | fuel, pkt, pbi =>
    let n := ppRound b len pkt pbi
    if n.2 < len ∧ b n.2 ≠ PROTO_ETX ∧ n.1.param_count < MAX_PROTO_PARAM_COUNT then
      match fuel with
      | 0 => n
      | f + 1 => parseParamsGo b len f n.1 n.2
    else n

/-- The CRC16 hex reading loop of proto_parse_pkt_buffer:
char crc16Hex[4] = {0,0,0,0}; for(int i=0; i<4 && pbi<len; i++) crc16Hex[i] = buffer[pbi++];
Returns the four bytes of crc16Hex and the final pbi. -/
def readCrcHex (b : Nat → Nat) (len pbi : Nat) : List Nat × Nat :=
  let r := min 4 (len - pbi)
  (((List.range r).map fun k => b (pbi + k)) ++ List.replicate (4 - r) 0, pbi + r)

/-- Hexadecimal value of one digit byte, for digits 0-9, A-F, a-f. -/
def hexVal (c : Nat) : Nat :=
  if c ≤ 57 then c - 48 else if c ≤ 70 then c - 55 else c - 87

/-- Whether a byte is an ASCII hexadecimal digit. -/
def isHexDigit (c : Nat) : Bool :=
  if 48 ≤ c ∧ c ≤ 57 then true
  else if 65 ≤ c ∧ c ≤ 70 then true
  else if 97 ≤ c ∧ c ≤ 102 then true
  else false

/-- Accumulating loop of the strtol model below. -/
def strtolHexGo : Nat → Nat → List Nat → Nat × Nat
  | acc, cnt, [] => (acc, cnt)
  | acc, cnt, c :: rest =>
    if isHexDigit c then strtolHexGo (acc * 16 + hexVal c) (cnt + 1) rest
    else (acc, cnt)

/-- Model of the C library call strtol(crc16Hex, &endPtr, 16) made by
proto_parse_pkt_buffer: parse the maximal leading run of hexadecimal digits
of the 4-byte crc16Hex array, returning the parsed value and the number of
digits consumed (endPtr == crc16Hex exactly when that number is zero).  The
model covers inputs whose first byte is a digit or a non-digit terminator
such as CR or NUL, which is every input the parser can build here; it does
not model strtol's optional whitespace, sign and 0x prefix handling. -/
def strtolHex (l : List Nat) : Nat × Nat := strtolHexGo 0 0 l

/-- Model of proto_parse_pkt_buffer(buffer, len, pkt) of protocol.h.  The
crcEnabled flag selects the conditionally compiled CRC16 block: the
repository defines DISABLE_CRC16, so the shipped firmware corresponds to
crcEnabled = false, and a build with integrity checking enabled to
crcEnabled = true.  Returns the int16_t result together with the packet
state after the call. -/
def proto_parse_pkt_buffer (crcEnabled : Bool) (buffer : Nat → Nat) (len : Nat)
    (pkt : ProtoPkt) : Int × ProtoPkt :=
  if len = 0 then (0, pkt)
  else
    let pkt1 : ProtoPkt := { pkt with crc16 := 0 }
    let fs := findStx buffer len
    if len ≤ fs.1 then (ERR_PROTO_CP_MISSING_STX, pkt1)
    else
      let cn := copyName buffer len pkt1.cmd 0 fs.1
      let pkt2 : ProtoPkt := { pkt1 with cmd := updFn cn.1 cn.2.1 0 }
      if len ≤ cn.2.2 then (ERR_PROTO_CP_MISSING_EFC, pkt2)
      else if MAX_PROTO_CMD ≤ cn.2.1 then (ERR_PROTO_CP_CMD_OVERFLOW, pkt2)
      else
        let pp : ProtoPkt × Nat :=
          if buffer cn.2.2 = PROTO_ETX then (pkt2, cn.2.2)
          else if buffer cn.2.2 = PROTO_PSC then parseParamsGo buffer len len pkt2 cn.2.2
          else (pkt2, cn.2.2)
        let pbi := if buffer pp.2 = PROTO_ETX then pp.2 + 1 else pp.2
        if crcEnabled then
          let pkt3 : ProtoPkt := { pp.1 with crc16 := crc16_buffer pp.1.crc16 buffer fs.2 pbi }
          let rd := readCrcHex buffer len pbi
          let sl := strtolHex rd.1
          if sl.2 = 0 ∧ sl.1 = 0 ∧ pkt3.crc16 ≠ 0 then (ERR_PROTO_CP_MISSING_CRC16, pkt3)
          else if sl.1 ≠ pkt3.crc16 then (ERR_PROTO_CP_CRC16_MISMATCH, pkt3)
          else (int16ofNat rd.2, pkt3)
        else (int16ofNat pbi, pp.1)

/-- Bytes of a NUL terminated C string stored in the byte array f starting
at index i, read until the terminator; the fuel is the capacity of the
array, within which a well formed C string terminates.  Models both
strlen(f) (through the length of the result) and Serial.write(f, strlen(f))
(through the result itself) for the encoder. -/
def cstrBytes (f : Nat → Nat) : Nat → Nat → List Nat
  | 0, _ => []
  | fuel + 1, i => if f i = 0 then [] else f i :: cstrBytes f fuel (i + 1)

/-- The command name string held in a packet's cmd array. -/
def cmdStr (pkt : ProtoPkt) : List Nat := cstrBytes pkt.cmd MAX_PROTO_CMD 0

/-- The parameter string held in slot i of a packet's params array. -/
def paramStr (pkt : ProtoPkt) (i : Nat) : List Nat :=
  cstrBytes (pkt.params i) MAX_PROTO_PARAM_LEN 0

/-- Uppercase hexadecimal digit byte for a value below 16. -/
def hexDigitChar (d : Nat) : Nat := if d < 10 then 48 + d else 55 + d

/-- Bytes printed by the Arduino call Serial.print(n, HEX) for a uint16_t
value n: the hexadecimal digits of n, most significant first, uppercase,
with no leading zeroes and a single 0 digit for n = 0.  Spelled out per
digit count, which is at most four since n < 2^16. -/
def hexChars (n : Nat) : List Nat :=
  if n < 16 then [hexDigitChar n]
  else if n < 256 then [hexDigitChar (n / 16), hexDigitChar (n % 16)]
  else if n < 4096 then
    [hexDigitChar (n / 256), hexDigitChar (n / 16 % 16), hexDigitChar (n % 16)]
  else
    [hexDigitChar (n / 4096 % 16), hexDigitChar (n / 256 % 16),
     hexDigitChar (n / 16 % 16), hexDigitChar (n % 16)]

/-- The do-while parameter emission loop of proto_print_response_pkt: for
each parameter slot i, write the separator and the slot's string, updating
the running CRC with crc16 over the separator and crc16_buffer over the
string; repeat while i < param_count after the increment.  The fuel bounds
the recursion depth; param_count is always enough, the loop running
param_count - 1 further rounds after its first entry at i = 0. -/
def emitParamsGo (pkt : ProtoPkt) : Nat → Nat → Nat → List Nat × Nat
  | fuel, crc, i =>
    let s := paramStr pkt i
    let crc1 := crc16_buffer (crc16 crc PROTO_PSC) (pkt.params i) 0 s.length
    if i + 1 < pkt.param_count then
      match fuel with
      | 0 => (PROTO_PSC :: s, crc1)
      | f + 1 =>
        let r := emitParamsGo pkt f crc1 (i + 1)
        (PROTO_PSC :: s ++ r.1, r.2)
    else (PROTO_PSC :: s, crc1)

/-- Model of proto_print_response_pkt of protocol.h: the exact byte
sequence written to the serial port, together with the packet state (whose
crc16 field the function recomputes from zero over every byte written from
STX through ETX).  Note the source prints the CRC16 suffix
unconditionally - the Serial.print(pkt_rsp->crc16, HEX) call is not under
the DISABLE_CRC16 conditional. -/
def proto_print_response_pkt (pkt : ProtoPkt) : List Nat × ProtoPkt :=
  let crc1 := crc16 0 PROTO_STX
  let name := cmdStr pkt
  let crc2 := crc16_buffer crc1 pkt.cmd 0 name.length
  let pr := if 0 < pkt.param_count then emitParamsGo pkt pkt.param_count crc2 0 else ([], crc2)
  let crc3 := crc16 pr.2 PROTO_ETX
  (PROTO_STX :: name ++ pr.1 ++ PROTO_ETX :: hexChars crc3 ++ [PROTO_CR],
   { pkt with crc16 := crc3 })

/-- strlen of a C string argument given as the list of bytes at the
pointer: the length of the prefix before the first NUL byte. -/
def strlenList (l : List Nat) : Nat := (l.takeWhile fun c => c != 0).length

/-- Model of proto_append_response_pkt_param of protocol.h.  The value
copy is strlcpy(dst, param, MAX_PROTO_PARAM_LEN), which stores at most
MAX_PROTO_PARAM_LEN - 1 bytes of the argument string and always NUL
terminates the destination. -/
def proto_append_response_pkt_param (pkt : ProtoPkt) (param : List Nat) : Int × ProtoPkt :=
  if MAX_PROTO_PARAM_COUNT < pkt.param_count + 1 then (ERR_PROTO_RB_TOO_MANY_PARAMS, pkt)
  else if MAX_PROTO_PARAM_LEN < strlenList param then (ERR_PROTO_RB_PARAM_OVERFLOW, pkt)
  else
    let cp := (param.takeWhile fun c => c != 0).take (MAX_PROTO_PARAM_LEN - 1)
    let params1 : Nat → Nat → Nat := fun x y =>
      if x = pkt.param_count ∧ y < cp.length then cp.getD y 0
      else if x = pkt.param_count ∧ y = cp.length then 0
      else pkt.params x y
    let newCount := (pkt.param_count + 1) % 256
    ((newCount : Int), { pkt with params := params1, param_count := newCount })

/-- The accumulator state of main.cpp: the global cib_len counter and the
char_in_buffer array. -/
structure AccState where
  cib_len : Nat
  char_in_buffer : Nat → Nat

/-- Result of one proc_input call: the uint8_t return value, the serial
bytes left unread (bytes after a successfully parsed frame stay in the
serial buffer for the next call), the accumulator state, the receive
packet state, and the error codes of the error response packets the call
printed to the serial port. -/
structure ProcResult where
  ret : Nat
  remaining : List Nat
  acc : AccState
  pkt : ProtoPkt
  emits : List Int

/-- The memset(char_in_buffer, 0, MAX_INPUT_BUFFER_LEN) of proc_input. -/
def memset256 (f : Nat → Nat) : Nat → Nat :=
  fun i => if i < MAX_PROTO_PACKET_LEN then 0 else f i

/-- Conversion of a non-negative int16_t to the uint8_t return type of
proc_input. -/
def uint8OfInt (i : Int) : Nat := i.toNat % 256

/-- Model of proc_input of main.cpp, consuming the available serial bytes
in order.  Each byte is appended to char_in_buffer unless the buffer is
full or the byte is CR or NL; on CR the buffer is parsed (the shipped
build has DISABLE_CRC16 set, hence crcEnabled = false), then cleared
unconditionally; a non-negative parse result is returned at once, a
negative one is reported as an error response.  After the serial bytes are
exhausted, a full buffer is reported as ERR_PROTO_CP_CMD_OVERFLOW and
cleared. -/
def procInputGo : List Nat → AccState → ProtoPkt → List Int → ProcResult
  | [], st, pkt, emits =>
    if MAX_PROTO_PACKET_LEN ≤ st.cib_len then
      ⟨0, [], ⟨0, memset256 st.char_in_buffer⟩, pkt, emits ++ [ERR_PROTO_CP_CMD_OVERFLOW]⟩
    else ⟨0, [], st, pkt, emits⟩
  | ich :: rest, st, pkt, emits =>
    let st1 : AccState :=
      if st.cib_len < MAX_PROTO_PACKET_LEN ∧ ich ≠ PROTO_CR ∧ ich ≠ PROTO_NL then
        ⟨st.cib_len + 1, updFn st.char_in_buffer st.cib_len ich⟩
      else st
    if ich = PROTO_CR then
      let r := proto_parse_pkt_buffer false st1.char_in_buffer st1.cib_len pkt
      let st2 : AccState := ⟨0, memset256 st1.char_in_buffer⟩
      if 0 ≤ r.1 then ⟨uint8OfInt r.1, rest, st2, r.2, emits⟩
      else procInputGo rest st2 r.2 (emits ++ [r.1])
    else procInputGo rest st1 pkt emits

/-- proc_input on a fresh call: nothing emitted yet. -/
def proc_input (input : List Nat) (st : AccState) (pkt : ProtoPkt) : ProcResult :=
  procInputGo input st pkt []

/-- A byte that a frame's name or parameter field can contain without
being cut short on the wire: not the NUL terminator, not the separator,
not the end marker. -/
def NonDelimChar (c : Nat) : Prop := c ≠ 0 ∧ c ≠ PROTO_PSC ∧ c ≠ PROTO_ETX

/-- A name that a packet can hold as a C string in its 10-byte cmd array:
non-empty, at most 9 bytes plus the terminator, no delimiter bytes. -/
def validName (name : List Nat) : Prop :=
  1 ≤ name.length ∧ name.length + 1 ≤ MAX_PROTO_CMD ∧ ∀ c ∈ name, NonDelimChar c

/-- A parameter value that a packet can hold as a C string in a 50-byte
param slot: at most 49 bytes plus the terminator, no delimiter bytes. -/
def validParam (p : List Nat) : Prop :=
  p.length + 1 ≤ MAX_PROTO_PARAM_LEN ∧ ∀ c ∈ p, NonDelimChar c

/-- The packet holding the given name and parameter strings, zero padded:
the state produced by writing them into a cleared packet. -/
def pktOf (name : List Nat) (ps : List (List Nat)) : ProtoPkt :=
  ⟨fun i => name.getD i 0, fun x y => (ps.getD x []).getD y 0, ps.length, 0⟩

/-- The wire bytes of the parameter section of a frame: a separator before
each parameter value. -/
def flatJoin : List (List Nat) → List Nat
  | [] => []
  | p :: r => PROTO_PSC :: p ++ flatJoin r

/-- The parameter section the encoder emits for a packet, slot by slot. -/
def flatParamsGo (pkt : ProtoPkt) : Nat → Nat → List Nat
  | 0, _ => []
  | f + 1, i => PROTO_PSC :: paramStr pkt i ++ flatParamsGo pkt f (i + 1)

/-- The parameter section the encoder emits for a packet. -/
def flatParams (pkt : ProtoPkt) : List Nat := flatParamsGo pkt pkt.param_count 0

/-- The CRC16 of a frame body as both encoder and decoder compute it: the
per byte CRC step folded over the bytes from STX through ETX inclusive. -/
def wireCrc (pkt : ProtoPkt) : Nat :=
  List.foldl crc16 0 (PROTO_STX :: cmdStr pkt ++ flatParams pkt ++ [PROTO_ETX])

/-- int16 conversion of a value below 2^15 is the value itself. -/
theorem int16ofNat_of_lt {n : Nat} (h : n < 32768) : int16ofNat n = (n : Int) := by
  unfold int16ofNat
  rw [Nat.mod_eq_of_lt (by omega)]
  simp [h]

/-- int16 conversion of a value below 2^15 is non-negative. -/
theorem int16ofNat_nonneg {n : Nat} (h : n < 32768) : 0 ≤ int16ofNat n := by
  rw [int16ofNat_of_lt h]
  exact Int.ofNat_nonneg n

/-- The STX search advances the index by at most fuel + 1. -/
theorem findStxGo_fst_le (b : Nat → Nat) :
    ∀ fuel pbi si, (findStxGo b fuel pbi si).1 ≤ pbi + fuel + 1 := by
  intro fuel
  induction fuel with
  | zero => intro pbi si; simp [findStxGo]
  | succ f ih =>
    intro pbi si
    by_cases h : b pbi = PROTO_STX
    · simp only [findStxGo, h, if_true]; omega
    · simp only [findStxGo, h, if_false]
      have := ih (pbi + 1) (si + 1)
      omega

/-- The STX search exhausts its fuel exactly when none of the bytes it may
still read before the pbi < len guard fails is STX; an STX at the very
last readable index pbi + fuel also exhausts the fuel, since the loop
exits only after the post-increment has pushed pbi past the bound. -/
theorem findStxGo_eq_iff (b : Nat → Nat) :
    ∀ fuel pbi si, (findStxGo b fuel pbi si).1 = pbi + fuel + 1 ↔
      ∀ j, pbi ≤ j → j < pbi + fuel → b j ≠ PROTO_STX := by
  intro fuel
  induction fuel with
  | zero =>
    intro pbi si
    constructor
    · intro _ j h1 h2 _; omega
    · intro _; simp [findStxGo]
  | succ f ih =>
    intro pbi si
    by_cases h : b pbi = PROTO_STX
    · simp only [findStxGo, h, if_true]
      constructor
      · intro he; omega
      · intro hall
        exact absurd h (hall pbi (le_refl pbi) (by omega))
    · simp only [findStxGo, h, if_false]
      rw [show pbi + (f + 1) + 1 = (pbi + 1) + f + 1 by omega]
      rw [ih (pbi + 1) (si + 1)]
      constructor
      · intro hall j h1 h2
        rcases Nat.eq_or_lt_of_le h1 with rfl | hlt
        · exact h
        · exact hall j hlt (by omega)
      · intro hall j h1 h2
        exact hall j (by omega) (by omega)

/-- The name copy loop exits at once when its fuel (the buffer room) is gone. -/
theorem copyName_exhausted (b : Nat → Nat) (len : Nat) (cmd : Nat → Nat) (i pbi : Nat)
    (h : len ≤ pbi) : copyName b len cmd i pbi = (cmd, i, pbi) := by
  unfold copyName
  rw [show len - pbi = 0 by omega]
  rfl

/-- The name copy loop exits at once when its guard fails. -/
theorem copyName_stop (b : Nat → Nat) (len : Nat) (cmd : Nat → Nat) (i pbi : Nat)
    (hg : ¬(i < MAX_PROTO_CMD ∧ b pbi ≠ PROTO_PSC ∧ b pbi ≠ PROTO_ETX)) :
    copyName b len cmd i pbi = (cmd, i, pbi) := by
  unfold copyName
  cases hf : len - pbi with
  | zero => rfl
  | succ f => simp [copyNameGo, hg]

/-- The name copy loop takes one step when room remains and the guard holds. -/
theorem copyName_step (b : Nat → Nat) (len : Nat) (cmd : Nat → Nat) (i pbi : Nat)
    (hlt : pbi < len)
    (hg : i < MAX_PROTO_CMD ∧ b pbi ≠ PROTO_PSC ∧ b pbi ≠ PROTO_ETX) :
    copyName b len cmd i pbi = copyName b len (updFn cmd i (b pbi)) (i + 1) (pbi + 1) := by
  unfold copyName
  rw [show len - pbi = (len - (pbi + 1)) + 1 by omega]
  simp [copyNameGo, hg.1, hg.2.1, hg.2.2]


/-- The name copy loop never moves its read index past the fuel bound. -/
theorem copyNameGo_pbi_le (b : Nat → Nat) :
    ∀ fuel cmd i pbi, (copyNameGo b fuel cmd i pbi).2.2 ≤ pbi + fuel := by
  intro fuel
  induction fuel with
  | zero => intro cmd i pbi; simp [copyNameGo]
  | succ f ih =>
    intro cmd i pbi
    by_cases hg : i < MAX_PROTO_CMD ∧ b pbi ≠ PROTO_PSC ∧ b pbi ≠ PROTO_ETX
    · simp only [copyNameGo]
      rw [if_pos hg]
      have := ih (updFn cmd i (b pbi)) (i + 1) (pbi + 1)
      omega
    · simp only [copyNameGo]
      rw [if_neg hg]
      exact Nat.le_add_right pbi (f + 1)

/-- The name copy loop never moves its read index backwards. -/
theorem copyNameGo_pbi_ge (b : Nat → Nat) :
    ∀ fuel cmd i pbi, pbi ≤ (copyNameGo b fuel cmd i pbi).2.2 := by
  intro fuel
  induction fuel with
  | zero => intro cmd i pbi; simp [copyNameGo]
  | succ f ih =>
    intro cmd i pbi
    by_cases hg : i < MAX_PROTO_CMD ∧ b pbi ≠ PROTO_PSC ∧ b pbi ≠ PROTO_ETX
    · simp only [copyNameGo]
      rw [if_pos hg]
      have := ih (updFn cmd i (b pbi)) (i + 1) (pbi + 1)
      omega
    · simp only [copyNameGo]
      rw [if_neg hg]

/-- After the name copy loop the read index is at most len. -/
theorem copyName_pbi_le (b : Nat → Nat) (len : Nat) (cmd : Nat → Nat) (i pbi : Nat)
    (h : pbi ≤ len) : (copyName b len cmd i pbi).2.2 ≤ len := by
  unfold copyName
  have := copyNameGo_pbi_le b (len - pbi) cmd i pbi
  omega

/-- The inner parameter copy loop copies at most fuel bytes. -/
theorem copyParamGo_delta_le (b : Nat → Nat) :
    ∀ fuel p slot pci pbi, (copyParamGo b fuel p slot pci pbi).2 ≤ fuel := by
  intro fuel
  induction fuel with
  | zero => intro p slot pci pbi; simp [copyParamGo]
  | succ f ih =>
    intro p slot pci pbi
    by_cases hg : pci < MAX_PROTO_PARAM_LEN ∧ b pbi ≠ PROTO_PSC ∧ b pbi ≠ PROTO_ETX
    · simp only [copyParamGo]
      rw [if_pos hg]
      have := ih (updFn2 p slot pci (b pbi)) slot (pci + 1) (pbi + 1)
      omega
    · simp only [copyParamGo]
      rw [if_neg hg]
      exact Nat.zero_le (f + 1)

/-- The inner parameter copy loop copies at most the buffer room. -/
theorem copyParam_delta_le (b : Nat → Nat) (len : Nat) (p : Nat → Nat → Nat)
    (slot pci pbi : Nat) : (copyParam b len p slot pci pbi).2 ≤ len - pbi := by
  unfold copyParam
  exact copyParamGo_delta_le b (len - pbi) p slot pci pbi

/-- One parameter round moves the read index forward but keeps it at most
len when it starts below len. -/
theorem ppRound_pbi_bounds (b : Nat → Nat) (len : Nat) (pkt : ProtoPkt) (pbi : Nat)
    (h : pbi < len) :
    pbi < (ppRound b len pkt pbi).2 ∧ (ppRound b len pkt pbi).2 ≤ len := by
  have := copyParam_delta_le b len pkt.params pkt.param_count 0 (pbi + 1)
  unfold ppRound
  constructor
  · simp only
    omega
  · simp only
    omega

/-- The do-while parameter loop leaves the read index at most len when it
starts below len. -/
theorem parseParamsGo_pbi_le (b : Nat → Nat) (len : Nat) :
    ∀ fuel pkt pbi, pbi < len → (parseParamsGo b len fuel pkt pbi).2 ≤ len := by
  intro fuel
  induction fuel with
  | zero =>
    intro pkt pbi h
    have hb := (ppRound_pbi_bounds b len pkt pbi h).2
    rw [parseParamsGo]
    split
    · exact hb
    · exact hb
  | succ f ih =>
    intro pkt pbi h
    have hb := (ppRound_pbi_bounds b len pkt pbi h).2
    rw [parseParamsGo]
    split
    · rename_i hg
      exact ih _ _ hg.1
    · exact hb

theorem copyName_copies (b : Nat → Nat) (len : Nat) :
    ∀ (chars : List Nat) (cmd : Nat → Nat) (i pbi : Nat),
      (∀ k, k < chars.length → b (pbi + k) = chars.getD k 0) →
      (∀ c ∈ chars, c ≠ PROTO_PSC ∧ c ≠ PROTO_ETX) →
      i + chars.length ≤ MAX_PROTO_CMD →
      pbi + chars.length < len →
      ¬(i + chars.length < MAX_PROTO_CMD ∧ b (pbi + chars.length) ≠ PROTO_PSC ∧
          b (pbi + chars.length) ≠ PROTO_ETX) →
      copyName b len cmd i pbi =
        (fun j => if i ≤ j ∧ j < i + chars.length then chars.getD (j - i) 0 else cmd j,
          i + chars.length, pbi + chars.length) := by
  intro chars
  induction chars with
  | nil =>
    intro cmd i pbi _ _ _ hlt hstop
    simp only [List.length_nil, Nat.add_zero] at hlt hstop ⊢
    rw [copyName_stop b len cmd i pbi hstop]
    simp only [Prod.mk.injEq, and_true]
    funext j
    rw [if_neg (show ¬(i ≤ j ∧ j < i) by omega)]
  | cons c cs ih =>
    intro cmd i pbi hread hnd hcap hlt hstop
    simp only [List.length_cons] at hcap hlt hstop ⊢
    have hbc : b pbi = c := by
      have h0 := hread 0 (by simp)
      simpa using h0
    have hc := hnd c (List.mem_cons_self c cs)
    have hicap : i < MAX_PROTO_CMD := by omega
    have hplen : pbi < len := by omega
    have hstep := copyName_step b len cmd i pbi hplen
      ⟨hicap, by rw [hbc]; exact hc.1, by rw [hbc]; exact hc.2⟩
    rw [hstep, hbc]
    have hcap2 : (i + 1) + cs.length ≤ MAX_PROTO_CMD := by omega
    have hlt2 : (pbi + 1) + cs.length < len := by omega
    have hstop2 : ¬((i + 1) + cs.length < MAX_PROTO_CMD ∧
        b ((pbi + 1) + cs.length) ≠ PROTO_PSC ∧ b ((pbi + 1) + cs.length) ≠ PROTO_ETX) := by
      rw [show (pbi + 1) + cs.length = pbi + (cs.length + 1) by omega,
          show (i + 1) + cs.length = i + (cs.length + 1) by omega]
      exact hstop
    have ihe := ih (updFn cmd i c) (i + 1) (pbi + 1)
      (fun k hk => by
        have h1 := hread (k + 1) (by simpa using Nat.succ_lt_succ hk)
        rw [show pbi + (k + 1) = pbi + 1 + k by omega] at h1
        simpa using h1)
      (fun d hd => hnd d (List.mem_cons_of_mem c hd))
      hcap2 hlt2 hstop2
    rw [ihe]
    simp only [Prod.mk.injEq]
    refine ⟨?_, by omega, by omega⟩
    funext j
    by_cases h1 : i + 1 ≤ j ∧ j < i + 1 + cs.length
    · rw [if_pos h1, if_pos (show i ≤ j ∧ j < i + (cs.length + 1) by omega)]
      have h3 : j - i = (j - (i + 1)) + 1 := by omega
      rw [h3, List.getD_cons_succ]
    · rw [if_neg h1]
      simp only [updFn]
      by_cases hji : j = i
      · rw [if_pos hji, if_pos (show i ≤ j ∧ j < i + (cs.length + 1) by omega)]
        rw [hji]
        simp
      · rw [if_neg hji, if_neg (show ¬(i ≤ j ∧ j < i + (cs.length + 1)) by omega)]

/-- The parameter copy loop exits at once when its fuel (the buffer room)
is gone. -/
theorem copyParam_exhausted (b : Nat → Nat) (len : Nat) (p : Nat → Nat → Nat)
    (slot pci pbi : Nat) (h : len ≤ pbi) : copyParam b len p slot pci pbi = (p, 0) := by
  unfold copyParam
  rw [show len - pbi = 0 by omega]
  rfl

/-- The parameter copy loop exits at once when its guard fails. -/
theorem copyParam_stop (b : Nat → Nat) (len : Nat) (p : Nat → Nat → Nat)
    (slot pci pbi : Nat)
    (hg : ¬(pci < MAX_PROTO_PARAM_LEN ∧ b pbi ≠ PROTO_PSC ∧ b pbi ≠ PROTO_ETX)) :
    copyParam b len p slot pci pbi = (p, 0) := by
  unfold copyParam
  cases hf : len - pbi with
  | zero => rfl
  | succ f => simp only [copyParamGo]; rw [if_neg hg]

/-- The parameter copy loop takes one step when room remains and the guard
holds. -/
theorem copyParam_step (b : Nat → Nat) (len : Nat) (p : Nat → Nat → Nat)
    (slot pci pbi : Nat) (hlt : pbi < len)
    (hg : pci < MAX_PROTO_PARAM_LEN ∧ b pbi ≠ PROTO_PSC ∧ b pbi ≠ PROTO_ETX) :
    copyParam b len p slot pci pbi =
      ((copyParam b len (updFn2 p slot pci (b pbi)) slot (pci + 1) (pbi + 1)).1,
        (copyParam b len (updFn2 p slot pci (b pbi)) slot (pci + 1) (pbi + 1)).2 + 1) := by
  unfold copyParam
  rw [show len - pbi = (len - (pbi + 1)) + 1 by omega]
  simp only [copyParamGo]
  rw [if_pos hg]

/-- The parameter copy loop copies a run of non-delimiter bytes verbatim
into one slot and stops at its end: if the buffer holds chars at pbi
onwards, the cap and room suffice for the run, and a separator or ETX byte
follows it, the loop writes chars to params[slot] indices
pci, ..., pci + chars.length - 1 and reports chars.length bytes copied. -/
theorem copyParam_copies (b : Nat → Nat) (len : Nat) :
    ∀ (chars : List Nat) (p : Nat → Nat → Nat) (slot pci pbi : Nat),
      (∀ k, k < chars.length → b (pbi + k) = chars.getD k 0) →
      (∀ c ∈ chars, c ≠ PROTO_PSC ∧ c ≠ PROTO_ETX) →
      pci + chars.length ≤ MAX_PROTO_PARAM_LEN →
      pbi + chars.length < len →
      (b (pbi + chars.length) = PROTO_PSC ∨ b (pbi + chars.length) = PROTO_ETX) →
      copyParam b len p slot pci pbi =
        (fun x y => if x = slot ∧ pci ≤ y ∧ y < pci + chars.length
            then chars.getD (y - pci) 0 else p x y,
          chars.length) := by
  intro chars
  induction chars with
  | nil =>
    intro p slot pci pbi _ _ _ hlt hstopd
    simp only [List.length_nil, Nat.add_zero] at hlt hstopd ⊢
    rw [copyParam_stop b len p slot pci pbi (by
      intro hcon
      rcases hstopd with hd | hd
      · exact hcon.2.1 hd
      · exact hcon.2.2 hd)]
    simp only [Prod.mk.injEq, and_true]
    funext x y
    rw [if_neg (show ¬(x = slot ∧ pci ≤ y ∧ y < pci) by omega)]
  | cons c cs ih =>
    intro p slot pci pbi hread hnd hcap hlt hstopd
    simp only [List.length_cons] at hcap hlt hstopd ⊢
    have hbc : b pbi = c := by
      have h0 := hread 0 (by simp)
      simpa using h0
    have hc := hnd c (List.mem_cons_self c cs)
    have hpcap : pci < MAX_PROTO_PARAM_LEN := by omega
    have hplen : pbi < len := by omega
    have hstep := copyParam_step b len p slot pci pbi hplen
      ⟨hpcap, by rw [hbc]; exact hc.1, by rw [hbc]; exact hc.2⟩
    rw [hstep, hbc]
    have hcap2 : (pci + 1) + cs.length ≤ MAX_PROTO_PARAM_LEN := by omega
    have hlt2 : (pbi + 1) + cs.length < len := by omega
    have hstopd2 : b ((pbi + 1) + cs.length) = PROTO_PSC ∨
        b ((pbi + 1) + cs.length) = PROTO_ETX := by
      rw [show (pbi + 1) + cs.length = pbi + (cs.length + 1) by omega]
      exact hstopd
    have ihe := ih (updFn2 p slot pci c) slot (pci + 1) (pbi + 1)
      (fun k hk => by
        have h1 := hread (k + 1) (by simpa using Nat.succ_lt_succ hk)
        rw [show pbi + (k + 1) = pbi + 1 + k by omega] at h1
        simpa using h1)
      (fun d hd => hnd d (List.mem_cons_of_mem c hd))
      hcap2 hlt2 hstopd2
    rw [ihe]
    simp only [Prod.mk.injEq, and_true]
    funext x y
    by_cases h1 : x = slot ∧ pci + 1 ≤ y ∧ y < pci + 1 + cs.length
    · rw [if_pos h1, if_pos (show x = slot ∧ pci ≤ y ∧ y < pci + (cs.length + 1) by omega)]
      have h3 : y - pci = (y - (pci + 1)) + 1 := by omega
      rw [h3, List.getD_cons_succ]
    · rw [if_neg h1]
      simp only [updFn2]
      by_cases hxy : x = slot ∧ y = pci
      · rw [if_pos hxy, if_pos (show x = slot ∧ pci ≤ y ∧ y < pci + (cs.length + 1) by omega)]
        rw [hxy.2]
        simp
      · rw [if_neg hxy,
          if_neg (show ¬(x = slot ∧ pci ≤ y ∧ y < pci + (cs.length + 1)) by omega)]

/-- The do-while parameter loop exits after one round when the loop guard
fails for the state that round produced. -/
theorem parseParamsGo_stop (b : Nat → Nat) (len fuel : Nat) (pkt : ProtoPkt) (pbi : Nat)
    (hg : ¬((ppRound b len pkt pbi).2 < len ∧ b (ppRound b len pkt pbi).2 ≠ PROTO_ETX ∧
        (ppRound b len pkt pbi).1.param_count < MAX_PROTO_PARAM_COUNT)) :
    parseParamsGo b len fuel pkt pbi = ppRound b len pkt pbi := by
  cases fuel with
  | zero =>
    rw [parseParamsGo]
    rw [if_neg hg]
  | succ f =>
    rw [parseParamsGo]
    rw [if_neg hg]

/-- The do-while parameter loop runs another round when the loop guard
holds for the state the last round produced and fuel remains. -/
theorem parseParamsGo_step (b : Nat → Nat) (len f : Nat) (pkt : ProtoPkt) (pbi : Nat)
    (hg : (ppRound b len pkt pbi).2 < len ∧ b (ppRound b len pkt pbi).2 ≠ PROTO_ETX ∧
        (ppRound b len pkt pbi).1.param_count < MAX_PROTO_PARAM_COUNT) :
    parseParamsGo b len (f + 1) pkt pbi =
      parseParamsGo b len f (ppRound b len pkt pbi).1 (ppRound b len pkt pbi).2 := by
  rw [parseParamsGo]
  rw [if_pos hg]

/-- Writing the terminating zero after the bytes the inner copy loop wrote
is the same as writing the zero padded value. -/
theorem updFn2_copies_terminator (p : Nat → Nat → Nat) (slot : Nat) (chars : List Nat) :
    updFn2 (fun x y => if x = slot ∧ 0 ≤ y ∧ y < 0 + chars.length
        then chars.getD (y - 0) 0 else p x y) slot chars.length 0
      = fun x y => if x = slot ∧ y ≤ chars.length then (chars ++ [0]).getD y 0 else p x y := by
  funext x y
  simp only [updFn2, Nat.zero_add, Nat.sub_zero, Nat.zero_le, true_and]
  by_cases hx : x = slot
  · by_cases hy : y < chars.length
    · rw [if_neg (by omega), if_pos ⟨hx, hy⟩, if_pos ⟨hx, by omega⟩]
      rw [List.getD_append chars [0] 0 y hy]
    · by_cases hy2 : y = chars.length
      · rw [if_pos ⟨hx, hy2⟩, if_pos ⟨hx, by omega⟩]
        rw [hy2, List.getD_append_right chars [0] 0 chars.length (Nat.le_refl _)]
        simp
      · rw [if_neg (by omega), if_neg (by omega), if_neg (by omega)]
  · rw [if_neg (by omega), if_neg (by omega), if_neg (by omega)]

/-- One round of the parameter loop on a buffer region holding one
complete parameter value followed by a separator or ETX: the value's bytes
and a terminating zero are written to the slot param_count, the count is
incremented, and the read index lands on the following delimiter. -/
theorem ppRound_spec (b : Nat → Nat) (len : Nat) (pkt : ProtoPkt) (pbi : Nat)
    (chars : List Nat)
    (hread : ∀ k, k < chars.length → b (pbi + 1 + k) = chars.getD k 0)
    (hnd : ∀ c ∈ chars, c ≠ PROTO_PSC ∧ c ≠ PROTO_ETX)
    (hcap : chars.length + 1 ≤ MAX_PROTO_PARAM_LEN)
    (hroom : pbi + 1 + chars.length < len)
    (hstopd : b (pbi + 1 + chars.length) = PROTO_PSC ∨ b (pbi + 1 + chars.length) = PROTO_ETX) :
    ppRound b len pkt pbi =
      ({ pkt with
          params := fun x y => if x = pkt.param_count ∧ y ≤ chars.length
            then (chars ++ [0]).getD y 0 else pkt.params x y,
          param_count := (pkt.param_count + 1) % 256 },
        pbi + 1 + chars.length) := by
  unfold ppRound
  simp only [copyParam_copies b len chars pkt.params pkt.param_count 0 (pbi + 1) hread hnd
    (by omega) hroom hstopd]
  rw [updFn2_copies_terminator]

/-- Pairs are equal when their components are. -/
theorem pair_eq {α β : Type} {a c : α} {b d : β} (h1 : a = c) (h2 : b = d) :
    (a, b) = (c, d) := by rw [h1, h2]

/-- Packets are equal when all four fields are. -/
theorem protoPkt_eq (p q : ProtoPkt) (h1 : p.cmd = q.cmd) (h2 : p.params = q.params)
    (h3 : p.param_count = q.param_count) (h4 : p.crc16 = q.crc16) : p = q := by
  cases p
  cases q
  simp only [ProtoPkt.mk.injEq]
  exact ⟨h1, h2, h3, h4⟩

/-- Length of the wire parameter section. -/
theorem flatJoin_length (p : List Nat) (r : List (List Nat)) :
    (flatJoin (p :: r)).length = 1 + p.length + (flatJoin r).length := by
  simp [flatJoin]
  omega

/-- The do-while parameter loop on a buffer region that holds a complete,
well formed parameter section: separator, value, ..., separator, value,
then ETX.  Starting at the first separator with enough parameter slots
free and enough fuel, it appends every value (each zero terminated) to
consecutive slots starting at param_count, adds the number of values to
param_count, and stops with the read index on the closing ETX. -/
theorem parseParams_spec (b : Nat → Nat) (len : Nat) :
    ∀ (ps : List (List Nat)) (fuel : Nat) (pkt : ProtoPkt) (pbi : Nat),
      ps ≠ [] →
      pkt.param_count + ps.length ≤ MAX_PROTO_PARAM_COUNT →
      (∀ k, k < (flatJoin ps).length → b (pbi + k) = (flatJoin ps).getD k 0) →
      b (pbi + (flatJoin ps).length) = PROTO_ETX →
      pbi + (flatJoin ps).length < len →
      (∀ p ∈ ps, p.length + 1 ≤ MAX_PROTO_PARAM_LEN ∧
        ∀ c ∈ p, c ≠ PROTO_PSC ∧ c ≠ PROTO_ETX) →
      ps.length ≤ fuel + 1 →
      parseParamsGo b len fuel pkt pbi =
        ({ pkt with
            params := fun x y =>
              if pkt.param_count ≤ x ∧ x < pkt.param_count + ps.length ∧
                  y ≤ (ps.getD (x - pkt.param_count) []).length
                then ((ps.getD (x - pkt.param_count) []) ++ [0]).getD y 0
                else pkt.params x y,
            param_count := pkt.param_count + ps.length },
          pbi + (flatJoin ps).length) := by
  intro ps
  induction ps with
  | nil => intro fuel pkt pbi hne; exact absurd rfl hne
  | cons p rest ih =>
    intro fuel pkt pbi _ hcnt hread hetx hroom hvalid hfuel
    have hflen : (flatJoin (p :: rest)).length = 1 + p.length + (flatJoin rest).length :=
      flatJoin_length p rest
    have hvp := hvalid p (List.mem_cons_self p rest)
    have hr1 : ∀ k, k < p.length → b (pbi + 1 + k) = p.getD k 0 := by
      intro k hk
      have h1 := hread (k + 1) (by omega)
      rw [show pbi + (k + 1) = pbi + 1 + k by omega] at h1
      rw [h1]
      show (PROTO_PSC :: (p ++ flatJoin rest)).getD (k + 1) 0 = p.getD k 0
      rw [List.getD_cons_succ, List.getD_append p (flatJoin rest) 0 k hk]
    have hstopd : b (pbi + 1 + p.length) = PROTO_PSC ∨ b (pbi + 1 + p.length) = PROTO_ETX := by
      cases rest with
      | nil =>
        right
        have hlen1 : (flatJoin [p]).length = p.length + 1 := by simp [flatJoin]
        rw [show pbi + 1 + p.length = pbi + (flatJoin [p]).length by omega]
        exact hetx
      | cons q rest2 =>
        left
        have h1 := hread (1 + p.length) (by
          rw [hflen]
          have h2 := flatJoin_length q rest2
          omega)
        rw [show pbi + (1 + p.length) = pbi + 1 + p.length by omega] at h1
        rw [h1]
        show (PROTO_PSC :: (p ++ flatJoin (q :: rest2))).getD (1 + p.length) 0 = PROTO_PSC
        rw [show 1 + p.length = p.length + 1 by omega, List.getD_cons_succ,
          List.getD_append_right p (flatJoin (q :: rest2)) 0 p.length (Nat.le_refl _),
          Nat.sub_self]
        show (PROTO_PSC :: (q ++ flatJoin rest2)).getD 0 0 = PROTO_PSC
        rfl
    have hroom1 : pbi + 1 + p.length < len := by omega
    have hpp := ppRound_spec b len pkt pbi p hr1 (fun c hc => hvp.2 c hc) hvp.1 hroom1 hstopd
    have hmod : (pkt.param_count + 1) % 256 = pkt.param_count + 1 := by
      have h2 : pkt.param_count + 1 < 256 := by
        simp only [MAX_PROTO_PARAM_COUNT, List.length_cons] at hcnt
        omega
      exact Nat.mod_eq_of_lt h2
    rw [hmod] at hpp
    cases rest with
    | nil =>
      have hlen1 : (flatJoin [p]).length = p.length + 1 := by simp [flatJoin]
      have hg : ¬((ppRound b len pkt pbi).2 < len ∧
          b (ppRound b len pkt pbi).2 ≠ PROTO_ETX ∧
          (ppRound b len pkt pbi).1.param_count < MAX_PROTO_PARAM_COUNT) := by
        rw [hpp]
        intro hcon
        apply hcon.2.1
        show b (pbi + 1 + p.length) = PROTO_ETX
        rw [show pbi + 1 + p.length = pbi + (flatJoin [p]).length by omega]
        exact hetx
      rw [parseParamsGo_stop b len fuel pkt pbi hg, hpp]
      refine pair_eq (protoPkt_eq _ _ rfl ?_ ?_ rfl) ?_
      · funext x y
        dsimp only
        simp only [List.length_cons, List.length_nil]
        by_cases hx : x = pkt.param_count
        · subst hx
          simp only [Nat.sub_self, List.getD_cons_zero]
          by_cases hy : y ≤ p.length
          · rw [if_pos ⟨by trivial, hy⟩, if_pos ⟨Nat.le_refl _, by omega, hy⟩]
          · rw [if_neg (by
              intro hcon
              exact hy hcon.2), if_neg (by
              intro hcon
              exact hy hcon.2.2)]
        · rw [if_neg (by
            intro hcon
            exact hx hcon.1), if_neg (by
            intro hcon
            exact hx (by omega))]
      · dsimp only
        simp only [List.length_cons, List.length_nil]
      · dsimp only
        omega
    | cons q rest2 =>
      have hg : ((ppRound b len pkt pbi).2 < len ∧
          b (ppRound b len pkt pbi).2 ≠ PROTO_ETX ∧
          (ppRound b len pkt pbi).1.param_count < MAX_PROTO_PARAM_COUNT) := by
        rw [hpp]
        refine ⟨?_, ?_, ?_⟩
        · show pbi + 1 + p.length < len
          omega
        · show b (pbi + 1 + p.length) ≠ PROTO_ETX
          rcases hstopd with hd | hd
          · rw [hd]
            simp [PROTO_PSC, PROTO_ETX]
          · exfalso
            have h1 := hread (1 + p.length) (by
              rw [hflen]
              have h2 := flatJoin_length q rest2
              omega)
            rw [show pbi + (1 + p.length) = pbi + 1 + p.length by omega] at h1
            rw [h1] at hd
            revert hd
            show ¬((PROTO_PSC :: (p ++ flatJoin (q :: rest2))).getD (1 + p.length) 0 = PROTO_ETX)
            rw [show 1 + p.length = p.length + 1 by omega, List.getD_cons_succ,
              List.getD_append_right p (flatJoin (q :: rest2)) 0 p.length (Nat.le_refl _),
              Nat.sub_self]
            show ¬((PROTO_PSC :: (q ++ flatJoin rest2)).getD 0 0 = PROTO_ETX)
            simp [PROTO_PSC, PROTO_ETX]
        · show pkt.param_count + 1 < MAX_PROTO_PARAM_COUNT
          simp only [MAX_PROTO_PARAM_COUNT, List.length_cons] at hcnt ⊢
          omega
      cases fuel with
      | zero =>
        exfalso
        simp only [List.length_cons] at hfuel
        omega
      | succ f =>
        rw [parseParamsGo_step b len f pkt pbi hg, hpp]
        have hrd2 : ∀ k, k < (flatJoin (q :: rest2)).length →
            b (pbi + 1 + p.length + k) = (flatJoin (q :: rest2)).getD k 0 := by
          intro k hk
          have h1 := hread (1 + p.length + k) (by rw [hflen]; omega)
          rw [show pbi + (1 + p.length + k) = pbi + 1 + p.length + k by omega] at h1
          rw [h1]
          show (PROTO_PSC :: (p ++ flatJoin (q :: rest2))).getD (1 + p.length + k) 0 =
            (flatJoin (q :: rest2)).getD k 0
          rw [show 1 + p.length + k = (p.length + k) + 1 by omega, List.getD_cons_succ,
            List.getD_append_right p (flatJoin (q :: rest2)) 0 (p.length + k)
              (Nat.le_add_right _ _), Nat.add_sub_cancel_left]
        have ihe := ih f
          ({ pkt with
              params := fun x y => if x = pkt.param_count ∧ y ≤ p.length
                then (p ++ [0]).getD y 0 else pkt.params x y,
              param_count := pkt.param_count + 1 })
          (pbi + 1 + p.length)
          (List.cons_ne_nil q rest2)
          (by
            show pkt.param_count + 1 + (q :: rest2).length ≤ MAX_PROTO_PARAM_COUNT
            simp only [MAX_PROTO_PARAM_COUNT, List.length_cons] at hcnt ⊢
            omega)
          hrd2
          (by
            rw [show pbi + 1 + p.length + (flatJoin (q :: rest2)).length =
              pbi + (flatJoin (p :: q :: rest2)).length by rw [hflen]; omega]
            exact hetx)
          (by rw [hflen] at hroom; omega)
          (fun r hr => hvalid r (List.mem_cons_of_mem p hr))
          (by simp only [List.length_cons] at hfuel ⊢; omega)
        rw [ihe]
        refine pair_eq (protoPkt_eq _ _ rfl ?_ ?_ rfl) ?_
        · funext x y
          dsimp only
          simp only [List.length_cons]
          by_cases hx : x = pkt.param_count
          · subst hx
            simp only [Nat.sub_self, List.getD_cons_zero]
            rw [if_neg (by omega)]
            by_cases hy : y ≤ p.length
            · rw [if_pos ⟨by trivial, hy⟩, if_pos ⟨Nat.le_refl _, by omega, hy⟩]
            · rw [if_neg (by
                intro hcon
                exact hy hcon.2), if_neg (by
                intro hcon
                exact hy hcon.2.2)]
          · by_cases hx2 : pkt.param_count + 1 ≤ x ∧ x < pkt.param_count + 1 + (rest2.length + 1)
            · have hxc : x - pkt.param_count = (x - (pkt.param_count + 1)) + 1 := by omega
              rw [hxc, List.getD_cons_succ]
              by_cases hy : y ≤ ((q :: rest2).getD (x - (pkt.param_count + 1)) []).length
              · rw [if_pos ⟨hx2.1, by omega, hy⟩, if_pos ⟨by omega, by omega, hy⟩]
              · rw [if_neg (by
                  intro hcon
                  exact hy hcon.2.2), if_neg (by omega), if_neg (by
                  intro hcon
                  exact hy hcon.2.2)]
            · rw [if_neg (by omega), if_neg (by omega), if_neg (by omega)]
        · dsimp only
          simp only [List.length_cons]
          omega
        · dsimp only
          rw [hflen]
          have h2 := flatJoin_length q rest2
          omega

/-- The crc16_buffer loop is the left fold of the CRC step over the bytes
the data array holds on the scanned range. -/
theorem crc16_bufferGo_eq_foldl (data : Nat → Nat) :
    ∀ (body : List Nat) (crc s : Nat),
      (∀ k, k < body.length → data (s + k) = body.getD k 0) →
      crc16_bufferGo data body.length crc s = List.foldl crc16 crc body := by
  intro body
  induction body with
  | nil => intro crc s _; rfl
  | cons c cs ih =>
    intro crc s hread
    have h0 : data s = c := by
      have h1 := hread 0 (by simp)
      simpa using h1
    show crc16_bufferGo data (cs.length + 1) crc s = List.foldl crc16 crc (c :: cs)
    rw [show crc16_bufferGo data (cs.length + 1) crc s =
      crc16_bufferGo data cs.length (crc16 crc (data s)) (s + 1) from rfl]
    rw [h0]
    exact ih (crc16 crc c) (s + 1) (fun k hk => by
      have h1 := hread (k + 1) (by simpa using Nat.succ_lt_succ hk)
      rw [show s + (k + 1) = s + 1 + k by omega] at h1
      simpa using h1)

/-- The C string bytes read from an array agree with the array. -/
theorem cstrBytes_getD (f : Nat → Nat) :
    ∀ (fuel s k : Nat), k < (cstrBytes f fuel s).length →
      f (s + k) = (cstrBytes f fuel s).getD k 0 := by
  intro fuel
  induction fuel with
  | zero => intro s k hk; simp [cstrBytes] at hk
  | succ n ih =>
    intro s k hk
    by_cases h0 : f s = 0
    · simp [cstrBytes, h0] at hk
    · simp only [cstrBytes, h0, if_false] at hk ⊢
      cases k with
      | zero => simp
      | succ k2 =>
        simp only [List.length_cons] at hk
        rw [List.getD_cons_succ, show s + (k2 + 1) = (s + 1) + k2 by omega]
        exact ih (s + 1) k2 (by omega)

/-- The C string bytes read from an array contain no NUL byte. -/
theorem cstrBytes_ne_zero (f : Nat → Nat) :
    ∀ (fuel s : Nat), ∀ c ∈ cstrBytes f fuel s, c ≠ 0 := by
  intro fuel
  induction fuel with
  | zero => intro s c hc; simp [cstrBytes] at hc
  | succ n ih =>
    intro s c hc
    by_cases h0 : f s = 0
    · simp [cstrBytes, h0] at hc
    · simp only [cstrBytes, h0, if_false, List.mem_cons] at hc
      rcases hc with rfl | hc
      · exact h0
      · exact ih (s + 1) c hc

/-- The parameter emission loop writes the parameter section and threads
the CRC as the left fold of the CRC step over the bytes it wrote. -/
theorem emitParamsGo_spec (pkt : ProtoPkt) :
    ∀ (d fuel crc i : Nat), i + d = pkt.param_count → 1 ≤ d → d ≤ fuel + 1 →
      emitParamsGo pkt fuel crc i =
        (flatParamsGo pkt d i, List.foldl crc16 crc (flatParamsGo pkt d i)) := by
  intro d
  induction d with
  | zero => intro fuel crc i _ h1; omega
  | succ d2 ihd =>
    intro fuel crc i hcount _ hfuel
    have hcrc1 : crc16_buffer (crc16 crc PROTO_PSC) (pkt.params i) 0 (paramStr pkt i).length =
        List.foldl crc16 (crc16 crc PROTO_PSC) (paramStr pkt i) := by
      unfold crc16_buffer
      rw [Nat.sub_zero]
      exact crc16_bufferGo_eq_foldl (pkt.params i) (paramStr pkt i) (crc16 crc PROTO_PSC) 0
        (fun k hk => by
          have h1 := cstrBytes_getD (pkt.params i) MAX_PROTO_PARAM_LEN 0 k hk
          simpa using h1)
    by_cases hd2 : d2 = 0
    · subst hd2
      have hbase : ∀ fuel2 : Nat, emitParamsGo pkt fuel2 crc i =
          (PROTO_PSC :: paramStr pkt i, List.foldl crc16 crc (PROTO_PSC :: paramStr pkt i)) := by
        intro fuel2
        cases fuel2 with
        | zero =>
          rw [emitParamsGo]
          rw [if_neg (by omega)]
          rw [hcrc1]
          rfl
        | succ f2 =>
          rw [emitParamsGo]
          rw [if_neg (by omega)]
          rw [hcrc1]
          rfl
      rw [hbase fuel]
      rw [show flatParamsGo pkt 1 i = PROTO_PSC :: paramStr pkt i ++ flatParamsGo pkt 0 (i + 1)
        from rfl]
      simp [flatParamsGo]
    · cases fuel with
      | zero => omega
      | succ f =>
        rw [emitParamsGo]
        rw [if_pos (by omega)]
        rw [hcrc1]
        have ihe := ihd f (List.foldl crc16 (crc16 crc PROTO_PSC) (paramStr pkt i)) (i + 1)
          (by omega) (by omega) (by omega)
        rw [ihe]
        show (PROTO_PSC :: paramStr pkt i ++ flatParamsGo pkt d2 (i + 1), _) =
          (flatParamsGo pkt (d2 + 1) i, _)
        rw [show flatParamsGo pkt (d2 + 1) i =
          PROTO_PSC :: paramStr pkt i ++ flatParamsGo pkt d2 (i + 1) from rfl]
        refine pair_eq rfl ?_
        rw [show (PROTO_PSC :: paramStr pkt i ++ flatParamsGo pkt d2 (i + 1)) =
          (PROTO_PSC :: paramStr pkt i) ++ flatParamsGo pkt d2 (i + 1) from rfl]
        rw [List.foldl_append]
        rfl

/-- The encoder emits STX, the name string, the parameter section, ETX,
the hexadecimal rendering of the CRC16 of every byte so emitted, then CR;
the packet keeps that CRC16 in its crc16 field. -/
theorem print_pkt_eq (pkt : ProtoPkt) :
    proto_print_response_pkt pkt =
      (PROTO_STX :: cmdStr pkt ++ flatParams pkt ++ PROTO_ETX :: hexChars (wireCrc pkt) ++
        [PROTO_CR],
        { pkt with crc16 := wireCrc pkt }) := by
  unfold proto_print_response_pkt
  dsimp only
  have hcrc2 : crc16_buffer (crc16 0 PROTO_STX) pkt.cmd 0 (cmdStr pkt).length =
      List.foldl crc16 (crc16 0 PROTO_STX) (cmdStr pkt) := by
    unfold crc16_buffer
    rw [Nat.sub_zero]
    exact crc16_bufferGo_eq_foldl pkt.cmd (cmdStr pkt) (crc16 0 PROTO_STX) 0
      (fun k hk => by
        have h1 := cstrBytes_getD pkt.cmd MAX_PROTO_CMD 0 k hk
        simpa using h1)
  rw [hcrc2]
  have hwire : ∀ sec : List Nat,
      crc16 (List.foldl crc16 (List.foldl crc16 (crc16 0 PROTO_STX) (cmdStr pkt)) sec)
        PROTO_ETX =
      List.foldl crc16 0 (PROTO_STX :: cmdStr pkt ++ sec ++ [PROTO_ETX]) := by
    intro sec
    rw [show (PROTO_STX :: cmdStr pkt ++ sec ++ [PROTO_ETX]) =
      PROTO_STX :: (cmdStr pkt ++ (sec ++ [PROTO_ETX])) by simp]
    rw [List.foldl_cons, List.foldl_append, List.foldl_append]
    rfl
  by_cases hc : 0 < pkt.param_count
  · rw [if_pos hc]
    rw [emitParamsGo_spec pkt pkt.param_count pkt.param_count
      (List.foldl crc16 (crc16 0 PROTO_STX) (cmdStr pkt)) 0 (by omega) (by omega) (by omega)]
    dsimp only
    rw [hwire (flatParamsGo pkt pkt.param_count 0)]
    unfold wireCrc flatParams
    rfl
  · rw [if_neg hc]
    dsimp only
    have hc0 : pkt.param_count = 0 := by omega
    have hfp : flatParams pkt = [] := by
      unfold flatParams
      rw [hc0]
      rfl
    have h3 : crc16 (List.foldl crc16 (crc16 0 PROTO_STX) (cmdStr pkt)) PROTO_ETX =
        wireCrc pkt := by
      unfold wireCrc
      rw [hfp]
      rw [show PROTO_STX :: cmdStr pkt ++ [] ++ [PROTO_ETX] =
        PROTO_STX :: (cmdStr pkt ++ ([] ++ [PROTO_ETX])) by simp]
      rw [List.foldl_cons, List.foldl_append, List.foldl_append]
      rfl
    rw [h3, hfp]

/-- Digit bytes the hex renderer produces are hexadecimal digits. -/
theorem isHexDigit_hexDigitChar (d : Nat) (h : d < 16) :
    isHexDigit (hexDigitChar d) = true := by
  unfold hexDigitChar isHexDigit
  by_cases hd : d < 10
  · rw [if_pos hd, if_pos (by omega)]
  · rw [if_neg hd, if_neg (by omega), if_pos (by omega)]

/-- Parsing a digit byte the hex renderer produced gives the digit back. -/
theorem hexVal_hexDigitChar (d : Nat) (h : d < 16) : hexVal (hexDigitChar d) = d := by
  unfold hexDigitChar hexVal
  by_cases hd : d < 10
  · rw [if_pos hd, if_pos (by omega)]
    omega
  · rw [if_neg hd, if_neg (by omega), if_pos (by omega)]
    omega

/-- The hex rendering is never empty. -/
theorem hexChars_len_pos (n : Nat) : 1 ≤ (hexChars n).length := by
  unfold hexChars
  split_ifs <;> simp

/-- The hex rendering of a 16-bit value has at most four digits. -/
theorem hexChars_len_le (n : Nat) : (hexChars n).length ≤ 4 := by
  unfold hexChars
  split_ifs <;> simp

/-- Every byte of the hex rendering is a hexadecimal digit. -/
theorem hexChars_all_hex (n : Nat) : ∀ c ∈ hexChars n, isHexDigit c = true := by
  unfold hexChars
  split_ifs with h1 h2 h3 <;> intro c hc <;> simp only [List.mem_cons,
    List.not_mem_nil, or_false] at hc
  · rcases hc with rfl
    exact isHexDigit_hexDigitChar n h1
  · rcases hc with rfl | rfl
    · exact isHexDigit_hexDigitChar _ (by omega)
    · exact isHexDigit_hexDigitChar _ (by omega)
  · rcases hc with rfl | rfl | rfl
    · exact isHexDigit_hexDigitChar _ (by omega)
    · exact isHexDigit_hexDigitChar _ (by omega)
    · exact isHexDigit_hexDigitChar _ (by omega)
  · rcases hc with rfl | rfl | rfl | rfl
    · exact isHexDigit_hexDigitChar _ (by omega)
    · exact isHexDigit_hexDigitChar _ (by omega)
    · exact isHexDigit_hexDigitChar _ (by omega)
    · exact isHexDigit_hexDigitChar _ (by omega)

/-- The strtol model consumes exactly a leading run of digits and stops at
the first non-digit. -/
theorem strtolHexGo_digits :
    ∀ (ds rest : List Nat) (acc cnt : Nat),
      (∀ c ∈ ds, isHexDigit c = true) →
      (∀ r ∈ rest.take 1, isHexDigit r = false) →
      strtolHexGo acc cnt (ds ++ rest) =
        (List.foldl (fun a c => a * 16 + hexVal c) acc ds, cnt + ds.length) := by
  intro ds
  induction ds with
  | nil =>
    intro rest acc cnt _ hrest
    cases rest with
    | nil => rfl
    | cons r rest2 =>
      have hr := hrest r (by simp)
      show strtolHexGo acc cnt (r :: rest2) = (acc, cnt + 0)
      rw [strtolHexGo]
      rw [if_neg (by rw [hr]; exact Bool.false_ne_true)]
      simp
  | cons c cs ih =>
    intro rest acc cnt hds hrest
    have hc := hds c (List.mem_cons_self c cs)
    show strtolHexGo acc cnt (c :: (cs ++ rest)) = _
    rw [strtolHexGo]
    rw [if_pos hc]
    rw [ih rest (acc * 16 + hexVal c) (cnt + 1) (fun d hd => hds d (List.mem_cons_of_mem c hd))
      hrest]
    simp only [List.length_cons, List.foldl_cons, Prod.mk.injEq, true_and]
    omega

/-- Parsing back the hex rendering of a 16-bit value recovers the value. -/
theorem foldl_hexVal_hexChars (n : Nat) (h : n < 65536) :
    List.foldl (fun a c => a * 16 + hexVal c) 0 (hexChars n) = n := by
  unfold hexChars
  split_ifs with h1 h2 h3
  · simp only [List.foldl_cons, List.foldl_nil]
    rw [hexVal_hexDigitChar n h1]
    omega
  · simp only [List.foldl_cons, List.foldl_nil]
    rw [hexVal_hexDigitChar (n / 16) (by omega), hexVal_hexDigitChar (n % 16) (by omega)]
    omega
  · simp only [List.foldl_cons, List.foldl_nil]
    rw [hexVal_hexDigitChar (n / 256) (by omega), hexVal_hexDigitChar (n / 16 % 16) (by omega),
      hexVal_hexDigitChar (n % 16) (by omega)]
    omega
  · simp only [List.foldl_cons, List.foldl_nil]
    rw [hexVal_hexDigitChar (n / 4096 % 16) (by omega),
      hexVal_hexDigitChar (n / 256 % 16) (by omega),
      hexVal_hexDigitChar (n / 16 % 16) (by omega), hexVal_hexDigitChar (n % 16) (by omega)]
    omega

/-- Reading an initial segment of a list through getD is take. -/
theorem range_map_getD_take :
    ∀ (m : Nat) (l : List Nat), m ≤ l.length →
      (List.range m).map (fun i => l.getD i 0) = l.take m := by
  intro m
  induction m with
  | zero => intro l _; simp
  | succ m2 ih =>
    intro l hlen
    cases l with
    | nil => simp at hlen
    | cons c ls =>
      rw [List.range_succ_eq_map, List.map_cons, List.map_map]
      rw [show ((fun i => (c :: ls).getD i 0) ∘ Nat.succ) = (fun i => ls.getD i 0) from by
        funext i
        simp [Function.comp, List.getD_cons_succ]]
      rw [ih ls (by simpa using hlen)]
      simp

/-- Reading a stored C string back gives the stored bytes: if the array
holds the bytes of l at s, none of them NUL, and a NUL follows within the
capacity, cstrBytes returns l. -/
theorem cstrBytes_of_list :
    ∀ (l : List Nat) (f : Nat → Nat) (fuel s : Nat),
      (∀ k, k < l.length → f (s + k) = l.getD k 0) →
      (∀ c ∈ l, c ≠ 0) →
      f (s + l.length) = 0 →
      l.length < fuel →
      cstrBytes f fuel s = l := by
  intro l
  induction l with
  | nil =>
    intro f fuel s _ _ hterm hfuel
    cases fuel with
    | zero => omega
    | succ n =>
      simp only [cstrBytes]
      rw [if_pos (by simpa using hterm)]
  | cons c cs ih =>
    intro f fuel s hread hnz hterm hfuel
    cases fuel with
    | zero => simp at hfuel
    | succ n =>
      have h0 : f s = c := by
        have h1 := hread 0 (by simp)
        simpa using h1
      simp only [cstrBytes]
      rw [if_neg (by rw [h0]; exact hnz c (List.mem_cons_self c cs)), h0]
      rw [ih f n (s + 1)
        (fun k hk => by
          have h1 := hread (k + 1) (by simpa using Nat.succ_lt_succ hk)
          rw [show s + (k + 1) = s + 1 + k by omega] at h1
          simpa using h1)
        (fun d hd => hnz d (List.mem_cons_of_mem c hd))
        (by
          rw [show s + 1 + cs.length = s + (cs.length + 1) by omega]
          simpa using hterm)
        (by simp at hfuel; omega)]

/-- The name string of a packet built from a valid name is that name. -/
theorem cmdStr_pktOf (name : List Nat) (ps : List (List Nat)) (hv : validName name) :
    cmdStr (pktOf name ps) = name := by
  unfold cmdStr pktOf
  exact cstrBytes_of_list name _ MAX_PROTO_CMD 0
    (fun k hk => by simp)
    (fun c hc => (hv.2.2 c hc).1)
    (by
      simp only [Nat.zero_add]
      exact List.getD_eq_default name 0 (Nat.le_refl _))
    (by
      have h1 := hv.2.1
      simp only [MAX_PROTO_CMD] at h1 ⊢
      omega)

/-- The parameter string of slot j of a packet built from valid parameter
values is the j-th value. -/
theorem paramStr_pktOf (name : List Nat) (ps : List (List Nat)) (j : Nat)
    (hvp : ∀ p ∈ ps, validParam p) :
    paramStr (pktOf name ps) j = ps.getD j [] := by
  unfold paramStr pktOf
  have hval : (ps.getD j []).length + 1 ≤ MAX_PROTO_PARAM_LEN ∧
      ∀ c ∈ ps.getD j [], c ≠ 0 := by
    by_cases hj : j < ps.length
    · have hm : ps.getD j [] ∈ ps := by
        rw [List.getD_eq_getElem ps [] hj]
        exact List.getElem_mem hj
      exact ⟨(hvp _ hm).1, fun c hc => ((hvp _ hm).2 c hc).1⟩
    · rw [List.getD_eq_default ps [] (by omega)]
      constructor
      · simp [MAX_PROTO_PARAM_LEN]
      · intro c hc
        simp at hc
  exact cstrBytes_of_list (ps.getD j []) _ MAX_PROTO_PARAM_LEN 0
    (fun k hk => by simp)
    hval.2
    (by
      simp only [Nat.zero_add]
      exact List.getD_eq_default _ 0 (Nat.le_refl _))
    (by
      have h1 := hval.1
      simp only [MAX_PROTO_PARAM_LEN] at h1 ⊢
      omega)

/-- The parameter section a packet built from valid values emits is the
wire parameter section of those values. -/
theorem flatParamsGo_pktOf (name : List Nat) (ps : List (List Nat))
    (hvp : ∀ p ∈ ps, validParam p) :
    ∀ (d i : Nat), i + d = ps.length →
      flatParamsGo (pktOf name ps) d i = flatJoin (ps.drop i) := by
  intro d
  induction d with
  | zero =>
    intro i hi
    rw [show i = ps.length by omega, List.drop_length]
    rfl
  | succ d2 ih =>
    intro i hi
    show PROTO_PSC :: paramStr (pktOf name ps) i ++ flatParamsGo (pktOf name ps) d2 (i + 1) = _
    rw [paramStr_pktOf name ps i hvp, ih (i + 1) (by omega)]
    have hj : i < ps.length := by omega
    rw [List.drop_eq_getElem_cons hj]
    show _ = PROTO_PSC :: ps[i] ++ flatJoin (ps.drop (i + 1))
    rw [List.getD_eq_getElem ps [] hj]

/-- The encoder's parameter section for a packet built from valid values. -/
theorem flatParams_pktOf (name : List Nat) (ps : List (List Nat))
    (hvp : ∀ p ∈ ps, validParam p) :
    flatParams (pktOf name ps) = flatJoin ps := by
  unfold flatParams
  have h1 := flatParamsGo_pktOf name ps hvp ps.length 0 (by omega)
  simpa using h1

/-- The STX scan stops immediately on a buffer that starts with STX. -/
theorem findStx_stx_first (b : Nat → Nat) (len : Nat) (h : b 0 = PROTO_STX) :
    findStx b len = (1, 0) := by
  unfold findStx
  cases h2 : len - 1 with
  | zero => rfl
  | succ f =>
    simp only [findStxGo]
    rw [if_pos h]

/-- The CRC hex read loop at the end of the frame body: it reads up to
four bytes of the trailing suffix into the four byte array. -/
theorem readCrcHex_at_append (body suffix : List Nat) :
    readCrcHex (bufOfList (body ++ suffix)) (body.length + suffix.length) body.length =
      (suffix.take (min 4 suffix.length) ++ List.replicate (4 - min 4 suffix.length) 0,
        body.length + min 4 suffix.length) := by
  unfold readCrcHex
  rw [show body.length + suffix.length - body.length = suffix.length by omega]
  dsimp only
  have hmap : (List.range (min 4 suffix.length)).map
      (fun k => bufOfList (body ++ suffix) (body.length + k)) =
      suffix.take (min 4 suffix.length) := by
    rw [show (fun k => bufOfList (body ++ suffix) (body.length + k)) =
      (fun i => suffix.getD i 0) from by
      funext k
      unfold bufOfList
      rw [List.getD_append_right body suffix 0 (body.length + k) (Nat.le_add_right _ _)]
      rw [Nat.add_sub_cancel_left]]
    exact range_map_getD_take (min 4 suffix.length) suffix (Nat.min_le_right _ _)
  rw [hmap]

/-- The CRC step yields a 16-bit value. -/
theorem crc16_lt (crc data : Nat) : crc16 crc data < 65536 := by
  unfold crc16
  exact Nat.mod_lt _ (by omega)

/-- Folding the CRC step from a 16-bit start stays 16-bit. -/
theorem foldl_crc16_lt : ∀ (l : List Nat) (a : Nat), a < 65536 →
    List.foldl crc16 a l < 65536 := by
  intro l
  induction l with
  | nil => intro a h; simpa using h
  | cons c cs ih =>
    intro a _
    rw [List.foldl_cons]
    exact ih (crc16 a c) (crc16_lt a c)

/-- The frame body CRC is a 16-bit value. -/
theorem wireCrc_lt (pkt : ProtoPkt) : wireCrc pkt < 65536 := by
  unfold wireCrc
  exact foldl_crc16_lt _ 0 (by omega)

/-- The packet a successful decode of a well formed frame produces from a
cleared packet: the name zero terminated in cmd, each parameter value zero
terminated in its slot, the parameter count, and a zero crc16 field prior
to the CRC accumulation. -/
def decodedPkt (name : List Nat) (ps : List (List Nat)) : ProtoPkt :=
  ⟨fun j => (name ++ [0]).getD j 0,
   fun x y => ((ps.getD x []) ++ [0]).getD y 0,
   ps.length, 0⟩

/-- Decoding of an encoded packet: the round trip of the protocol, with
integrity checking enabled on the decode side. -/
def decodeEncoded (name : List Nat) (ps : List (List Nat)) : Int × ProtoPkt :=
  proto_parse_pkt_buffer true
    (bufOfList (proto_print_response_pkt (pktOf name ps)).1)
    (proto_print_response_pkt (pktOf name ps)).1.length zeroPkt

/-- Reading a zero padded value one past or beyond the value yields zero. -/
theorem getD_pad_zero (l : List Nat) (y : Nat) (h : l.length ≤ y) :
    (l ++ [0]).getD y 0 = 0 := by
  rw [List.getD_append_right l [0] 0 y h]
  rcases Nat.eq_or_lt_of_le h with h1 | h1
  · rw [show y - l.length = 0 from by omega]
    rfl
  · rw [show y - l.length = (y - l.length - 1) + 1 from by omega, List.getD_cons_succ,
      List.getD_nil]

/-- Length bound of the wire parameter section of in-bound values. -/
theorem flatJoin_len_le : ∀ (ps : List (List Nat)),
    (∀ p ∈ ps, p.length + 1 ≤ MAX_PROTO_PARAM_LEN) →
    (flatJoin ps).length ≤ 50 * ps.length := by
  intro ps
  induction ps with
  | nil => intro _; simp [flatJoin]
  | cons p rest ih =>
    intro h
    have h1 := h p (List.mem_cons_self p rest)
    have h2 := ih (fun q hq => h q (List.mem_cons_of_mem p hq))
    rw [flatJoin_length]
    simp only [MAX_PROTO_PARAM_LEN] at h1
    simp only [List.length_cons]
    omega

/-- Parsing the CRC hex field that the decoder's four byte read loop
builds from the encoder's hex rendering followed by the CR terminator
recovers the encoded value and consumes exactly its digits. -/
theorem crcTail_resolve (C2 : Nat) (hClt : C2 < 65536) :
    strtolHex ((hexChars C2 ++ [PROTO_CR]).take (min 4 ((hexChars C2).length + 1)) ++
        List.replicate (4 - min 4 ((hexChars C2).length + 1)) 0) =
      (C2, (hexChars C2).length) := by
  have hD1 := hexChars_len_pos C2
  have hD4 := hexChars_len_le C2
  by_cases hD : (hexChars C2).length = 4
  · rw [show min 4 ((hexChars C2).length + 1) = (hexChars C2).length from by omega]
    rw [List.take_left]
    rw [show 4 - (hexChars C2).length = 0 from by omega]
    rw [List.replicate_zero, List.append_nil]
    have hsl := strtolHexGo_digits (hexChars C2) [] 0 0 (hexChars_all_hex C2) (by simp)
    rw [List.append_nil] at hsl
    unfold strtolHex
    rw [hsl, foldl_hexVal_hexChars C2 hClt]
    exact pair_eq rfl (Nat.zero_add _)
  · rw [show min 4 ((hexChars C2).length + 1) = (hexChars C2).length + 1 from by omega]
    rw [show (hexChars C2).length + 1 = (hexChars C2 ++ [PROTO_CR]).length from by simp]
    rw [List.take_length, List.append_assoc, List.singleton_append]
    have hsl := strtolHexGo_digits (hexChars C2)
      (PROTO_CR :: List.replicate (4 - (hexChars C2 ++ [PROTO_CR]).length) 0) 0 0
      (hexChars_all_hex C2)
      (by
        intro r hr
        have hr2 := List.take_subset 1 _ hr
        simp only [List.mem_cons] at hr2
        rcases hr2 with h | h
        · rw [h]
          decide
        · rw [List.eq_of_mem_replicate h]
          decide)
    unfold strtolHex
    rw [hsl, foldl_hexVal_hexChars C2 hClt]
    exact pair_eq rfl (Nat.zero_add _)

/-- Parsing a well formed frame, with integrity checking enabled, whose
trailing field carries the hex rendering of the frame body CRC followed by
the CR terminator: the parse succeeds, consumes the body and the hex
digits, and decodes the name and parameters into the cleared packet. -/
theorem parse_frame_crc (name : List Nat) (ps : List (List Nat))
    (B wire : List Nat) (C : Nat)
    (hB : B = PROTO_STX :: name ++ flatJoin ps ++ [PROTO_ETX])
    (hC : C = List.foldl crc16 0 B)
    (hwire : wire = B ++ (hexChars C ++ [PROTO_CR]))
    (hn1 : 1 ≤ name.length) (hn9 : name.length + 1 ≤ MAX_PROTO_CMD)
    (hnd : ∀ c ∈ name, c ≠ PROTO_PSC ∧ c ≠ PROTO_ETX)
    (hcnt : ps.length ≤ MAX_PROTO_PARAM_COUNT)
    (hvp : ∀ p ∈ ps, p.length + 1 ≤ MAX_PROTO_PARAM_LEN ∧
      ∀ c ∈ p, c ≠ PROTO_PSC ∧ c ≠ PROTO_ETX) :
    proto_parse_pkt_buffer true (bufOfList wire) wire.length zeroPkt =
      (int16ofNat (B.length + min 4 ((hexChars C).length + 1)),
        { decodedPkt name ps with crc16 := C }) := by
  have hnest : wire = PROTO_STX ::
      (name ++ (flatJoin ps ++ (PROTO_ETX :: (hexChars C ++ [PROTO_CR])))) := by
    rw [hwire, hB]
    simp
  have hBlen : B.length = name.length + (flatJoin ps).length + 2 := by
    rw [hB]
    simp only [List.length_cons, List.length_append, List.length_nil]
    omega
  have hL : wire.length = name.length + (flatJoin ps).length + (hexChars C).length + 3 := by
    rw [hwire]
    simp only [List.length_append, List.length_cons, List.length_nil]
    omega
  have hrd0 : bufOfList wire 0 = PROTO_STX := by
    rw [hnest]
    rfl
  have hrdname : ∀ k, k < name.length → bufOfList wire (1 + k) = name.getD k 0 := by
    intro k hk
    rw [hnest]
    unfold bufOfList
    rw [show 1 + k = k + 1 by omega, List.getD_cons_succ]
    exact List.getD_append _ _ 0 k hk
  have hafter : bufOfList wire (1 + name.length) =
      (flatJoin ps ++ (PROTO_ETX :: (hexChars C ++ [PROTO_CR]))).getD 0 0 := by
    rw [hnest]
    unfold bufOfList
    rw [show 1 + name.length = name.length + 1 by omega, List.getD_cons_succ,
      List.getD_append_right name _ 0 name.length (Nat.le_refl _), Nat.sub_self]
  have hrdflat : ∀ k, k < (flatJoin ps).length →
      bufOfList wire (1 + name.length + k) = (flatJoin ps).getD k 0 := by
    intro k hk
    rw [hnest]
    unfold bufOfList
    rw [show 1 + name.length + k = (name.length + k) + 1 by omega, List.getD_cons_succ,
      List.getD_append_right name _ 0 _ (by omega),
      show name.length + k - name.length = k by omega]
    exact List.getD_append _ _ 0 k hk
  have hETXread : bufOfList wire (1 + name.length + (flatJoin ps).length) = PROTO_ETX := by
    rw [hnest]
    unfold bufOfList
    rw [show 1 + name.length + (flatJoin ps).length =
        (name.length + (flatJoin ps).length) + 1 by omega, List.getD_cons_succ,
      List.getD_append_right name _ 0 _ (by omega),
      show name.length + (flatJoin ps).length - name.length = (flatJoin ps).length by omega,
      List.getD_append_right (flatJoin ps) _ 0 _ (Nat.le_refl _), Nat.sub_self]
    rfl
  have hrdB : ∀ k, k < B.length → bufOfList wire (0 + k) = B.getD k 0 := by
    intro k hk
    rw [Nat.zero_add, hwire]
    unfold bufOfList
    exact List.getD_append _ _ 0 k hk
  have hcrcB : crc16_buffer 0 (bufOfList wire) 0 B.length = C := by
    unfold crc16_buffer
    rw [Nat.sub_zero, crc16_bufferGo_eq_foldl (bufOfList wire) B 0 0 hrdB]
    exact hC.symm
  have hClt : C < 65536 := by
    rw [hC]
    exact foldl_crc16_lt _ 0 (by omega)
  have hD1 : 1 ≤ (hexChars C).length := hexChars_len_pos C
  have hstopval : bufOfList wire (1 + name.length) = PROTO_PSC ∨
      bufOfList wire (1 + name.length) = PROTO_ETX := by
    rw [hafter]
    cases ps with
    | nil => exact Or.inr rfl
    | cons p r => exact Or.inl rfl
  unfold proto_parse_pkt_buffer
  dsimp only
  simp only [zeroPkt]
  rw [if_neg (show ¬(wire.length = 0) by omega)]
  rw [findStx_stx_first (bufOfList wire) wire.length hrd0]
  dsimp only
  rw [if_neg (show ¬(wire.length ≤ 1) by omega)]
  rw [copyName_copies (bufOfList wire) wire.length name (fun _ => 0) 0 1 hrdname hnd
    (by omega) (by omega)
    (fun hcon => hstopval.elim (fun h => hcon.2.1 h) (fun h => hcon.2.2 h))]
  dsimp only
  rw [if_neg (show ¬(wire.length ≤ 1 + name.length) by omega)]
  rw [if_neg (show ¬(MAX_PROTO_CMD ≤ 0 + name.length) by omega)]
  cases ps with
  | nil =>
    have h93 : bufOfList wire (1 + name.length) = PROTO_ETX := by
      rw [hafter]
      rfl
    rw [if_pos h93]
    dsimp only
    rw [if_pos h93]
    rw [if_pos trivial]
    rw [show (1 : Nat) + name.length + 1 = B.length from by
      rw [hBlen]
      simp only [flatJoin, List.length_nil]
      omega]
    rw [hcrcB, hwire, List.length_append, readCrcHex_at_append B (hexChars C ++ [PROTO_CR])]
    dsimp only
    rw [show (hexChars C ++ [PROTO_CR]).length = (hexChars C).length + 1 from by simp]
    rw [crcTail_resolve C hClt]
    dsimp only
    rw [if_neg (by
      intro hcon
      obtain ⟨h1, -⟩ := hcon
      omega)]
    rw [if_neg (by
      intro hcon
      exact hcon rfl)]
    refine pair_eq rfl (protoPkt_eq _ _ ?_ ?_ ?_ ?_)
    · funext j
      simp only [decodedPkt, updFn, Nat.sub_zero]
      rcases Nat.lt_or_ge j name.length with hj | hj
      · rw [if_neg (show ¬(j = 0 + name.length) by omega),
          if_pos (show 0 ≤ j ∧ j < 0 + name.length from ⟨Nat.zero_le j, by omega⟩),
          List.getD_append name [0] 0 j hj]
      · rw [getD_pad_zero name j hj]
        by_cases hj2 : j = 0 + name.length
        · rw [if_pos hj2]
        · rw [if_neg hj2, if_neg (show ¬(0 ≤ j ∧ j < 0 + name.length) by omega)]
    · funext x y
      simp only [decodedPkt]
      rw [List.getD_nil, List.nil_append]
      cases y with
      | zero => rfl
      | succ m => rw [List.getD_cons_succ, List.getD_nil]
    · simp only [decodedPkt, List.length_nil]
    · rfl
  | cons p rest =>
    have h58 : bufOfList wire (1 + name.length) = PROTO_PSC := by
      rw [hafter]
      rfl
    rw [if_neg (show ¬(bufOfList wire (1 + name.length) = PROTO_ETX) from by
      rw [h58]
      decide)]
    rw [if_pos h58]
    rw [parseParams_spec (bufOfList wire) wire.length (p :: rest) wire.length
      ⟨updFn (fun j => if 0 ≤ j ∧ j < 0 + name.length then name.getD (j - 0) 0 else 0)
          (0 + name.length) 0,
        fun _ _ => 0, 0, 0⟩ (1 + name.length)
      (by simp)
      (by simpa using hcnt)
      hrdflat hETXread
      (by omega)
      hvp
      (by
        simp only [MAX_PROTO_PARAM_COUNT] at hcnt
        simp only [List.length_cons] at hcnt ⊢
        omega)]
    dsimp only
    rw [if_pos hETXread]
    rw [if_pos trivial]
    rw [show (1 : Nat) + name.length + (flatJoin (p :: rest)).length + 1 = B.length from by
      rw [hBlen]
      omega]
    rw [hcrcB, hwire, List.length_append, readCrcHex_at_append B (hexChars C ++ [PROTO_CR])]
    dsimp only
    rw [show (hexChars C ++ [PROTO_CR]).length = (hexChars C).length + 1 from by simp]
    rw [crcTail_resolve C hClt]
    dsimp only
    rw [if_neg (by
      intro hcon
      obtain ⟨h1, -⟩ := hcon
      omega)]
    rw [if_neg (by
      intro hcon
      exact hcon rfl)]
    refine pair_eq rfl (protoPkt_eq _ _ ?_ ?_ ?_ ?_)
    · funext j
      simp only [decodedPkt, updFn, Nat.sub_zero]
      rcases Nat.lt_or_ge j name.length with hj | hj
      · rw [if_neg (show ¬(j = 0 + name.length) by omega),
          if_pos (show 0 ≤ j ∧ j < 0 + name.length from ⟨Nat.zero_le j, by omega⟩),
          List.getD_append name [0] 0 j hj]
      · rw [getD_pad_zero name j hj]
        by_cases hj2 : j = 0 + name.length
        · rw [if_pos hj2]
        · rw [if_neg hj2, if_neg (show ¬(0 ≤ j ∧ j < 0 + name.length) by omega)]
    · funext x y
      simp only [decodedPkt, Nat.sub_zero]
      by_cases hx : x < (p :: rest).length
      · by_cases hy : y ≤ ((p :: rest).getD x []).length
        · rw [if_pos (show 0 ≤ x ∧ x < 0 + (p :: rest).length ∧
              y ≤ ((p :: rest).getD x []).length from ⟨Nat.zero_le x, by omega, hy⟩)]
        · rw [if_neg (show ¬(0 ≤ x ∧ x < 0 + (p :: rest).length ∧
              y ≤ ((p :: rest).getD x []).length) from fun hcon => hy hcon.2.2)]
          rw [getD_pad_zero _ y (by omega)]
      · rw [if_neg (show ¬(0 ≤ x ∧ x < 0 + (p :: rest).length ∧
            y ≤ ((p :: rest).getD x []).length) from fun hcon => absurd hcon.2.1 (by omega))]
        rw [List.getD_eq_default (p :: rest) [] (by omega), List.nil_append]
        cases y with
        | zero => rfl
        | succ m => rw [List.getD_cons_succ, List.getD_nil]
    · simp only [decodedPkt]
      omega
    · rfl

/-- C1: Round-trip property of section 8 of the specification: a packet
with a valid name and at most four parameter values within the length
bounds, encoded by proto_print_response_pkt and decoded again by
proto_parse_pkt_buffer with integrity checking enabled, is reproduced
exactly: the decode succeeds (non-negative return) and the decoded
packet's name bytes, parameter count and parameter bytes agree with the
original packet. -/
theorem c1_round_trip (name : List Nat) (ps : List (List Nat)) (hn : validName name)
    (hc : ps.length ≤ MAX_PROTO_PARAM_COUNT) (hp : ∀ p ∈ ps, validParam p) :
    0 ≤ (decodeEncoded name ps).1 ∧
    (∀ j, (decodeEncoded name ps).2.cmd j = (pktOf name ps).cmd j) ∧
    (decodeEncoded name ps).2.param_count = (pktOf name ps).param_count ∧
    (∀ x y, (decodeEncoded name ps).2.params x y = (pktOf name ps).params x y) := by
  obtain ⟨hn1, hn9, hndc⟩ := hn
  have hnd : ∀ c ∈ name, c ≠ PROTO_PSC ∧ c ≠ PROTO_ETX :=
    fun c hcm => ⟨(hndc c hcm).2.1, (hndc c hcm).2.2⟩
  have hvp : ∀ p ∈ ps, p.length + 1 ≤ MAX_PROTO_PARAM_LEN ∧
      ∀ c ∈ p, c ≠ PROTO_PSC ∧ c ≠ PROTO_ETX :=
    fun p hpm => ⟨(hp p hpm).1,
      fun c hcm => ⟨((hp p hpm).2 c hcm).2.1, ((hp p hpm).2 c hcm).2.2⟩⟩
  have henc : (proto_print_response_pkt (pktOf name ps)).1 =
      (PROTO_STX :: name ++ flatJoin ps ++ [PROTO_ETX]) ++
        (hexChars (List.foldl crc16 0 (PROTO_STX :: name ++ flatJoin ps ++ [PROTO_ETX])) ++
          [PROTO_CR]) := by
    rw [print_pkt_eq]
    dsimp only
    rw [cmdStr_pktOf name ps ⟨hn1, hn9, hndc⟩, flatParams_pktOf name ps hp]
    rw [show wireCrc (pktOf name ps) =
        List.foldl crc16 0 (PROTO_STX :: name ++ flatJoin ps ++ [PROTO_ETX]) from by
      unfold wireCrc
      rw [cmdStr_pktOf name ps ⟨hn1, hn9, hndc⟩, flatParams_pktOf name ps hp]]
    simp [List.append_assoc]
  have hkey := parse_frame_crc name ps
    (PROTO_STX :: name ++ flatJoin ps ++ [PROTO_ETX])
    ((PROTO_STX :: name ++ flatJoin ps ++ [PROTO_ETX]) ++
      (hexChars (List.foldl crc16 0 (PROTO_STX :: name ++ flatJoin ps ++ [PROTO_ETX])) ++
        [PROTO_CR]))
    (List.foldl crc16 0 (PROTO_STX :: name ++ flatJoin ps ++ [PROTO_ETX]))
    rfl rfl rfl hn1 hn9 hnd hc hvp
  have hdec : decodeEncoded name ps =
      (int16ofNat ((PROTO_STX :: name ++ flatJoin ps ++ [PROTO_ETX]).length +
          min 4 ((hexChars
            (List.foldl crc16 0 (PROTO_STX :: name ++ flatJoin ps ++ [PROTO_ETX]))).length + 1)),
        { decodedPkt name ps with
            crc16 := List.foldl crc16 0 (PROTO_STX :: name ++ flatJoin ps ++ [PROTO_ETX]) }) := by
    unfold decodeEncoded
    rw [henc, hkey]
  rw [hdec]
  have hF := flatJoin_len_le ps (fun p hpm => (hp p hpm).1)
  have hBl : (PROTO_STX :: name ++ flatJoin ps ++ [PROTO_ETX]).length =
      name.length + (flatJoin ps).length + 2 := by
    simp only [List.length_cons, List.length_append, List.length_nil]
    omega
  simp only [MAX_PROTO_CMD] at hn9
  simp only [MAX_PROTO_PARAM_COUNT] at hc
  refine ⟨?_, ?_, ?_, ?_⟩
  · apply int16ofNat_nonneg
    omega
  · intro j
    simp only [decodedPkt, pktOf]
    rcases Nat.lt_or_ge j name.length with hj | hj
    · rw [List.getD_append name [0] 0 j hj]
    · rw [getD_pad_zero name j hj, List.getD_eq_default name 0 hj]
  · simp only [decodedPkt, pktOf]
  · intro x y
    simp only [decodedPkt, pktOf]
    rcases Nat.lt_or_ge y (ps.getD x []).length with hyy | hyy
    · rw [List.getD_append _ [0] 0 y hyy]
    · rw [getD_pad_zero _ y hyy, List.getD_eq_default _ 0 hyy]

theorem c1_round_trip_witness :
    0 ≤ (decodeEncoded [67, 80, 86] [[48]]).1 ∧
    (∀ j, (decodeEncoded [67, 80, 86] [[48]]).2.cmd j = (pktOf [67, 80, 86] [[48]]).cmd j) ∧
    (decodeEncoded [67, 80, 86] [[48]]).2.param_count = (pktOf [67, 80, 86] [[48]]).param_count ∧
    (∀ x y, (decodeEncoded [67, 80, 86] [[48]]).2.params x y =
      (pktOf [67, 80, 86] [[48]]).params x y) :=
  c1_round_trip [67, 80, 86] [[48]]
    (by unfold validName NonDelimChar; decide) (by decide)
    (by unfold validParam NonDelimChar; decide)

/-- C2: Concrete decode scenarios with integrity checking disabled, as
the shipped build compiles the parser: the frame bytes of [CSB:FF] CR NUL
decode successfully into name CSB with the single parameter FF; the frame
bytes of [CSE] CR decode successfully into name CSE with no parameters;
the truncated frame [CPV with no closing ETX yields the missing frame
terminator error. -/
theorem c2_concrete_decodes :
    (0 ≤ (proto_parse_pkt_buffer false (bufOfList [91, 67, 83, 66, 58, 70, 70, 93, 13, 0])
        10 zeroPkt).1 ∧
      (proto_parse_pkt_buffer false (bufOfList [91, 67, 83, 66, 58, 70, 70, 93, 13, 0])
        10 zeroPkt).2.cmd 0 = 67 ∧
      (proto_parse_pkt_buffer false (bufOfList [91, 67, 83, 66, 58, 70, 70, 93, 13, 0])
        10 zeroPkt).2.cmd 1 = 83 ∧
      (proto_parse_pkt_buffer false (bufOfList [91, 67, 83, 66, 58, 70, 70, 93, 13, 0])
        10 zeroPkt).2.cmd 2 = 66 ∧
      (proto_parse_pkt_buffer false (bufOfList [91, 67, 83, 66, 58, 70, 70, 93, 13, 0])
        10 zeroPkt).2.cmd 3 = 0 ∧
      (proto_parse_pkt_buffer false (bufOfList [91, 67, 83, 66, 58, 70, 70, 93, 13, 0])
        10 zeroPkt).2.param_count = 1 ∧
      (proto_parse_pkt_buffer false (bufOfList [91, 67, 83, 66, 58, 70, 70, 93, 13, 0])
        10 zeroPkt).2.params 0 0 = 70 ∧
      (proto_parse_pkt_buffer false (bufOfList [91, 67, 83, 66, 58, 70, 70, 93, 13, 0])
        10 zeroPkt).2.params 0 1 = 70 ∧
      (proto_parse_pkt_buffer false (bufOfList [91, 67, 83, 66, 58, 70, 70, 93, 13, 0])
        10 zeroPkt).2.params 0 2 = 0) ∧
    (0 ≤ (proto_parse_pkt_buffer false (bufOfList [91, 67, 83, 69, 93, 13]) 6 zeroPkt).1 ∧
      (proto_parse_pkt_buffer false (bufOfList [91, 67, 83, 69, 93, 13]) 6 zeroPkt).2.cmd 0 = 67 ∧
      (proto_parse_pkt_buffer false (bufOfList [91, 67, 83, 69, 93, 13]) 6 zeroPkt).2.cmd 1 = 83 ∧
      (proto_parse_pkt_buffer false (bufOfList [91, 67, 83, 69, 93, 13]) 6 zeroPkt).2.cmd 2 = 69 ∧
      (proto_parse_pkt_buffer false (bufOfList [91, 67, 83, 69, 93, 13]) 6 zeroPkt).2.cmd 3 = 0 ∧
      (proto_parse_pkt_buffer false (bufOfList [91, 67, 83, 69, 93, 13]) 6
        zeroPkt).2.param_count = 0) ∧
    (proto_parse_pkt_buffer false (bufOfList [91, 67, 80, 86]) 4 zeroPkt).1 =
      ERR_PROTO_CP_MISSING_EFC := by
  decide

/-- A value below 2^15 converts to a non-negative int16, hence differs
from every negative error code. -/
theorem int16ofNat_ne_neg (n : Nat) (m : Int) (h : n < 32768) (hm : m < 0) :
    int16ofNat n ≠ m := by
  rw [int16ofNat_of_lt h]
  intro hcon
  omega

/-- The CRC block and the return of proto_parse_pkt_buffer never produce
the missing STX error once the read position is within the buffer. -/
theorem parse_tail_ne (crcE : Bool) (b : Nat → Nat) (len si : Nat) (pp : ProtoPkt × Nat)
    (h2 : len ≤ 32766) (hpp : pp.2 ≤ len) :
    (let pbi := if b pp.2 = PROTO_ETX then pp.2 + 1 else pp.2
     if crcE then
       let pkt3 : ProtoPkt := { pp.1 with crc16 := crc16_buffer pp.1.crc16 b si pbi }
       let rd := readCrcHex b len pbi
       let sl := strtolHex rd.1
       if sl.2 = 0 ∧ sl.1 = 0 ∧ pkt3.crc16 ≠ 0 then (ERR_PROTO_CP_MISSING_CRC16, pkt3)
       else if sl.1 ≠ pkt3.crc16 then (ERR_PROTO_CP_CRC16_MISMATCH, pkt3)
       else (int16ofNat rd.2, pkt3)
     else (int16ofNat pbi, pp.1)).1 ≠ ERR_PROTO_CP_MISSING_STX := by
  have hpb : (if b pp.2 = PROTO_ETX then pp.2 + 1 else pp.2) ≤ len + 1 := by
    split_ifs <;> omega
  have hrdq : ∀ q : Nat, (readCrcHex b len q).2 = q + min 4 (len - q) := fun q => rfl
  cases crcE with
  | false =>
    rw [if_neg Bool.false_ne_true]
    exact int16ofNat_ne_neg _ ERR_PROTO_CP_MISSING_STX (by omega) (by decide)
  | true =>
    rw [if_pos rfl]
    dsimp only
    split_ifs
    all_goals first
      | exact fun hcon => absurd (show ERR_PROTO_CP_MISSING_CRC16 = ERR_PROTO_CP_MISSING_STX from hcon) (by decide)
      | exact fun hcon => absurd (show ERR_PROTO_CP_CRC16_MISMATCH = ERR_PROTO_CP_MISSING_STX from hcon) (by decide)
      | exact int16ofNat_ne_neg _ ERR_PROTO_CP_MISSING_STX (by have hq1 := hrdq (pp.2 + 1); have hq2 := hrdq pp.2; omega) (by decide)

/-- Once the STX scan succeeds with the read index still below len, no
later branch of the parser can return the missing STX error. -/
theorem parse_fst_ne_missing_stx (crcE : Bool) (b : Nat → Nat) (len : Nat) (pkt : ProtoPkt)
    (h1 : 0 < len) (h2 : len ≤ 32766) (hf : (findStx b len).1 < len) :
    (proto_parse_pkt_buffer crcE b len pkt).1 ≠ ERR_PROTO_CP_MISSING_STX := by
  unfold proto_parse_pkt_buffer
  dsimp only
  rw [if_neg (show ¬(len = 0) by omega), if_neg (show ¬(len ≤ (findStx b len).1) by omega)]
  have hcple : (copyName b len pkt.cmd 0 (findStx b len).1).2.2 ≤ len :=
    copyName_pbi_le b len pkt.cmd 0 (findStx b len).1 (by omega)
  by_cases hEFC : len ≤ (copyName b len pkt.cmd 0 (findStx b len).1).2.2
  · rw [if_pos hEFC]
    exact fun hcon => absurd
      (show ERR_PROTO_CP_MISSING_EFC = ERR_PROTO_CP_MISSING_STX from hcon) (by decide)
  · rw [if_neg hEFC]
    by_cases hOV : MAX_PROTO_CMD ≤ (copyName b len pkt.cmd 0 (findStx b len).1).2.1
    · rw [if_pos hOV]
      exact fun hcon => absurd
        (show ERR_PROTO_CP_CMD_OVERFLOW = ERR_PROTO_CP_MISSING_STX from hcon) (by decide)
    · rw [if_neg hOV]
      refine parse_tail_ne crcE b len _ _ h2 ?_
      split_ifs
      · exact hcple
      · exact parseParamsGo_pbi_le b len len _ _ (by omega)
      · exact hcple

/-- C3 counterexample: the buffer of the two bytes A STX has length 2 and
holds an STX byte at index 1, yet the parser reports the missing STX
error, because the scan's post-increment pushes the read index to len
when STX is the last byte. -/
theorem c3_counterexample :
    bufOfList [65, 91] 1 = PROTO_STX ∧ 1 < 2 ∧
    (proto_parse_pkt_buffer false (bufOfList [65, 91]) 2 zeroPkt).1 =
      ERR_PROTO_CP_MISSING_STX := by
  decide

/-- C3 (amended): for buffers of positive length within the int16 range,
the parser returns the missing STX error exactly when no byte strictly
before the last position is STX: an STX byte at index len - 1 is found by
the scan only after the post-increment has pushed the read index to len,
so it is reported as missing, while an STX at any earlier index lets
decoding proceed past the scan. -/
theorem c3_missing_stx_iff (crcE : Bool) (b : Nat → Nat) (len : Nat) (pkt : ProtoPkt)
    (h1 : 0 < len) (h2 : len ≤ 32766) :
    (proto_parse_pkt_buffer crcE b len pkt).1 = ERR_PROTO_CP_MISSING_STX ↔
      ∀ k, k < len - 1 → b k ≠ PROTO_STX := by
  have hle := findStxGo_fst_le b (len - 1) 0 0
  by_cases hstx : len ≤ (findStx b len).1
  · have hparse : (proto_parse_pkt_buffer crcE b len pkt).1 = ERR_PROTO_CP_MISSING_STX := by
      unfold proto_parse_pkt_buffer
      dsimp only
      rw [if_neg (show ¬(len = 0) by omega), if_pos hstx]
    rw [hparse]
    constructor
    · intro _ k hk
      have hfs : (findStx b len).1 = (findStxGo b (len - 1) 0 0).1 := rfl
      have heq : (findStxGo b (len - 1) 0 0).1 = 0 + (len - 1) + 1 := by omega
      have hnos := (findStxGo_eq_iff b (len - 1) 0 0).mp heq
      exact fun hcon => hnos k (Nat.zero_le k) (by omega) hcon
    · intro _
      rfl
  · push_neg at hstx
    constructor
    · intro hret
      exact absurd hret (parse_fst_ne_missing_stx crcE b len pkt h1 h2 hstx)
    · intro hall
      have hfs : (findStx b len).1 = (findStxGo b (len - 1) 0 0).1 := rfl
      have hfind : ¬((findStxGo b (len - 1) 0 0).1 = 0 + (len - 1) + 1) := by omega
      exact absurd ((findStxGo_eq_iff b (len - 1) 0 0).mpr
        (fun j _ hj => hall j (by omega))) hfind

theorem c3_missing_stx_iff_witness :
    ((proto_parse_pkt_buffer false (bufOfList [65, 66]) 2 zeroPkt).1 =
        ERR_PROTO_CP_MISSING_STX ↔
      ∀ k, k < 2 - 1 → bufOfList [65, 66] k ≠ PROTO_STX) :=
  c3_missing_stx_iff false (bufOfList [65, 66]) 2 zeroPkt (by decide) (by decide)

/-- The name copy loop never rewrites cmd indices below its starting
write index. -/
theorem copyNameGo_low (b : Nat → Nat) :
    ∀ (fuel : Nat) (cmd : Nat → Nat) (i pbi j : Nat), j < i →
      (copyNameGo b fuel cmd i pbi).1 j = cmd j := by
  intro fuel
  induction fuel with
  | zero => intro cmd i pbi j hj; rfl
  | succ f ih =>
    intro cmd i pbi j hj
    simp only [copyNameGo]
    split_ifs with hg
    · rw [ih (updFn cmd i (b pbi)) (i + 1) (pbi + 1) j (by omega)]
      unfold updFn
      rw [if_neg (by omega)]
    · rfl

/-- The name copy loop never decreases the write index. -/
theorem copyNameGo_i_ge (b : Nat → Nat) :
    ∀ (fuel : Nat) (cmd : Nat → Nat) (i pbi : Nat),
      i ≤ (copyNameGo b fuel cmd i pbi).2.1 := by
  intro fuel
  induction fuel with
  | zero => intro cmd i pbi; exact Nat.le_refl i
  | succ f ih =>
    intro cmd i pbi
    simp only [copyNameGo]
    split_ifs with hg
    · have := ih (updFn cmd i (b pbi)) (i + 1) (pbi + 1)
      omega
    · exact Nat.le_refl i

/-- When the byte at the copy start is readable and not a delimiter, the
name copy stores it as the first name byte and advances the write index. -/
theorem copyName_first (b : Nat → Nat) (len : Nat) (cmd : Nat → Nat) (pbi : Nat)
    (hlt : pbi < len) (hg : b pbi ≠ PROTO_PSC ∧ b pbi ≠ PROTO_ETX) :
    (copyName b len cmd 0 pbi).1 0 = b pbi ∧ 1 ≤ (copyName b len cmd 0 pbi).2.1 := by
  unfold copyName
  obtain ⟨f, hf⟩ : ∃ f, len - pbi = f + 1 := ⟨len - pbi - 1, by omega⟩
  rw [hf]
  simp only [copyNameGo]
  rw [if_pos ⟨by decide, hg.1, hg.2⟩]
  constructor
  · rw [copyNameGo_low b f _ 1 (pbi + 1) 0 (by omega)]
    unfold updFn
    rw [if_pos rfl]
  · exact copyNameGo_i_ge b f _ 1 (pbi + 1)

/-- One round of the parameter loop leaves the cmd array unchanged. -/
theorem ppRound_cmd (b : Nat → Nat) (len : Nat) (pkt : ProtoPkt) (pbi : Nat) :
    (ppRound b len pkt pbi).1.cmd = pkt.cmd := rfl

/-- The parameter loop leaves the cmd array unchanged. -/
theorem parseParamsGo_cmd (b : Nat → Nat) (len : Nat) :
    ∀ (fuel : Nat) (pkt : ProtoPkt) (pbi : Nat),
      (parseParamsGo b len fuel pkt pbi).1.cmd = pkt.cmd := by
  intro fuel
  induction fuel with
  | zero =>
    intro pkt pbi
    unfold parseParamsGo
    dsimp only
    split_ifs <;> rfl
  | succ f ih =>
    intro pkt pbi
    unfold parseParamsGo
    dsimp only
    split_ifs with hg
    · exact (ih _ _).trans (ppRound_cmd b len pkt pbi)
    · rfl

/-- The CRC block and the return of the parser leave the cmd array of the
decoded packet unchanged, so a non-empty name survives to the result. -/
theorem parse_tail_cmd0 (crcE : Bool) (b : Nat → Nat) (len si : Nat) (pp : ProtoPkt × Nat)
    (hv : pp.1.cmd 0 ≠ 0) :
    ((let pbi := if b pp.2 = PROTO_ETX then pp.2 + 1 else pp.2
      if crcE then
        let pkt3 : ProtoPkt := { pp.1 with crc16 := crc16_buffer pp.1.crc16 b si pbi }
        let rd := readCrcHex b len pbi
        let sl := strtolHex rd.1
        if sl.2 = 0 ∧ sl.1 = 0 ∧ pkt3.crc16 ≠ 0 then (ERR_PROTO_CP_MISSING_CRC16, pkt3)
        else if sl.1 ≠ pkt3.crc16 then (ERR_PROTO_CP_CRC16_MISMATCH, pkt3)
        else (int16ofNat rd.2, pkt3)
      else (int16ofNat pbi, pp.1)).2).cmd 0 ≠ 0 := by
  cases crcE with
  | false => exact hv
  | true =>
    dsimp only
    split_ifs <;> exact hv

/-- C4 counterexample: the two byte frame of STX ETX with no name bytes
between them decodes successfully (return value 2, non-negative), yet the
packet's name is left empty: the decoder writes the terminating zero into
cmd index 0, here overwriting a previously non-empty name. -/
theorem c4_counterexample :
    0 ≤ (proto_parse_pkt_buffer false (bufOfList [91, 93]) 2
        ⟨fun _ => 65, fun _ _ => 0, 0, 0⟩).1 ∧
    (proto_parse_pkt_buffer false (bufOfList [91, 93]) 2
        ⟨fun _ => 65, fun _ _ => 0, 0, 0⟩).2.cmd 0 = 0 := by
  decide

/-- C4 (amended): the decoded name is non-empty provided the frame itself
carries a non-empty name: whenever the byte at the position where the STX
scan stopped is readable and is neither a separator, an ETX, nor a zero
byte, the packet's cmd array after the call starts with that byte, which
is non-zero - on the success path and on every later error path alike.
The original invariant is refuted by the empty-name frame STX ETX, which
decodes successfully with an empty name. -/
theorem c4_name_first_byte (crcE : Bool) (b : Nat → Nat) (len : Nat) (pkt : ProtoPkt)
    (h1 : 0 < len) (hf : (findStx b len).1 < len)
    (hps : b ((findStx b len).1) ≠ PROTO_PSC) (het : b ((findStx b len).1) ≠ PROTO_ETX)
    (hnz : b ((findStx b len).1) ≠ 0) :
    (proto_parse_pkt_buffer crcE b len pkt).2.cmd 0 ≠ 0 := by
  have hcf := copyName_first b len pkt.cmd (findStx b len).1 hf ⟨hps, het⟩
  have hge := hcf.2
  unfold proto_parse_pkt_buffer
  dsimp only
  rw [if_neg (show ¬(len = 0) by omega), if_neg (show ¬(len ≤ (findStx b len).1) by omega)]
  by_cases hEFC : len ≤ (copyName b len pkt.cmd 0 (findStx b len).1).2.2
  · rw [if_pos hEFC]
    dsimp only
    unfold updFn
    rw [if_neg (show ¬((0 : Nat) = (copyName b len pkt.cmd 0 (findStx b len).1).2.1)
      from by omega), hcf.1]
    exact hnz
  · rw [if_neg hEFC]
    by_cases hOV : MAX_PROTO_CMD ≤ (copyName b len pkt.cmd 0 (findStx b len).1).2.1
    · rw [if_pos hOV]
      dsimp only
      unfold updFn
      rw [if_neg (show ¬((0 : Nat) = (copyName b len pkt.cmd 0 (findStx b len).1).2.1)
        from by omega), hcf.1]
      exact hnz
    · rw [if_neg hOV]
      refine parse_tail_cmd0 crcE b len _ _ ?_
      split_ifs
      all_goals try rw [parseParamsGo_cmd]
      all_goals dsimp only
      all_goals unfold updFn
      all_goals rw [if_neg (show ¬((0 : Nat) =
        (copyName b len pkt.cmd 0 (findStx b len).1).2.1) from by omega), hcf.1]
      all_goals exact hnz

theorem c4_name_first_byte_witness :
    (proto_parse_pkt_buffer false (bufOfList [91, 67, 93]) 3 zeroPkt).2.cmd 0 ≠ 0 :=
  c4_name_first_byte false (bufOfList [91, 67, 93]) 3 zeroPkt (by decide) (by decide)
    (by decide) (by decide) (by decide)

/-- Full run description of the name copy loop: it copies some number d
of consecutive non-delimiter bytes, advancing write index and read index
together, and stops for one of the loop's three reasons: fuel (the
pbi < len guard) exhausted, the name cap reached, or a delimiter byte
reached. -/
theorem copyNameGo_run (b : Nat → Nat) :
    ∀ (fuel : Nat) (cmd : Nat → Nat) (i pbi : Nat), i ≤ MAX_PROTO_CMD →
      ∃ d : Nat,
        (copyNameGo b fuel cmd i pbi).2.1 = i + d ∧
        (copyNameGo b fuel cmd i pbi).2.2 = pbi + d ∧
        d ≤ fuel ∧ i + d ≤ MAX_PROTO_CMD ∧
        (∀ k, k < d → b (pbi + k) ≠ PROTO_PSC ∧ b (pbi + k) ≠ PROTO_ETX) ∧
        (d = fuel ∨ i + d = MAX_PROTO_CMD ∨
          b (pbi + d) = PROTO_PSC ∨ b (pbi + d) = PROTO_ETX) := by
  intro fuel
  induction fuel with
  | zero =>
    intro cmd i pbi hi
    exact ⟨0, rfl, rfl, Nat.le_refl 0, by omega, fun k hk => absurd hk (by omega), Or.inl rfl⟩
  | succ f ih =>
    intro cmd i pbi hi
    by_cases hg : i < MAX_PROTO_CMD ∧ b pbi ≠ PROTO_PSC ∧ b pbi ≠ PROTO_ETX
    · obtain ⟨d, h1, h2, h3, h4, h5, h6⟩ := ih (updFn cmd i (b pbi)) (i + 1) (pbi + 1)
        (by simp only [MAX_PROTO_CMD] at hg ⊢; omega)
      refine ⟨d + 1, ?_, ?_, by omega, by omega, ?_, ?_⟩
      · simp only [copyNameGo]
        rw [if_pos hg, h1]
        omega
      · simp only [copyNameGo]
        rw [if_pos hg, h2]
        omega
      · intro k hk
        cases k with
        | zero =>
          rw [Nat.add_zero]
          exact ⟨hg.2.1, hg.2.2⟩
        | succ k2 =>
          have h7 := h5 k2 (by omega)
          rwa [show pbi + 1 + k2 = pbi + (k2 + 1) by omega] at h7
      · rcases h6 with h | h | h | h
        · exact Or.inl (by omega)
        · exact Or.inr (Or.inl (by omega))
        · exact Or.inr (Or.inr (Or.inl
            (by rwa [show pbi + 1 + d = pbi + (d + 1) by omega] at h)))
        · exact Or.inr (Or.inr (Or.inr
            (by rwa [show pbi + 1 + d = pbi + (d + 1) by omega] at h)))
    · refine ⟨0, ?_, ?_, by omega, by omega, fun k hk => absurd hk (by omega), ?_⟩
      · simp only [copyNameGo]
        rw [if_neg hg]
        rfl
      · simp only [copyNameGo]
        rw [if_neg hg]
        rfl
      · by_cases hiM : i < MAX_PROTO_CMD
        · by_cases hpsc : b pbi = PROTO_PSC
          · exact Or.inr (Or.inr (Or.inl (by rwa [Nat.add_zero])))
          · have hetx : b pbi = PROTO_ETX := by
              by_contra hne
              exact hg ⟨hiM, hpsc, hne⟩
            exact Or.inr (Or.inr (Or.inr (by rwa [Nat.add_zero])))
        · exact Or.inr (Or.inl (by omega))

/-- The CRC block and the return of the parser never produce a negative
value other than the two CRC error codes. -/
theorem parse_tail_ne2 (crcE : Bool) (b : Nat → Nat) (len si : Nat) (pp : ProtoPkt × Nat)
    (m : Int) (hm : m < 0) (h111 : ERR_PROTO_CP_MISSING_CRC16 ≠ m)
    (h110 : ERR_PROTO_CP_CRC16_MISMATCH ≠ m)
    (h2 : len ≤ 32766) (hpp : pp.2 ≤ len) :
    (let pbi := if b pp.2 = PROTO_ETX then pp.2 + 1 else pp.2
     if crcE then
       let pkt3 : ProtoPkt := { pp.1 with crc16 := crc16_buffer pp.1.crc16 b si pbi }
       let rd := readCrcHex b len pbi
       let sl := strtolHex rd.1
       if sl.2 = 0 ∧ sl.1 = 0 ∧ pkt3.crc16 ≠ 0 then (ERR_PROTO_CP_MISSING_CRC16, pkt3)
       else if sl.1 ≠ pkt3.crc16 then (ERR_PROTO_CP_CRC16_MISMATCH, pkt3)
       else (int16ofNat rd.2, pkt3)
     else (int16ofNat pbi, pp.1)).1 ≠ m := by
  have hpb : (if b pp.2 = PROTO_ETX then pp.2 + 1 else pp.2) ≤ len + 1 := by
    split_ifs <;> omega
  have hrdq : ∀ q : Nat, (readCrcHex b len q).2 = q + min 4 (len - q) := fun q => rfl
  cases crcE with
  | false =>
    rw [if_neg Bool.false_ne_true]
    exact int16ofNat_ne_neg _ m (by omega) hm
  | true =>
    rw [if_pos rfl]
    dsimp only
    split_ifs
    all_goals first
      | exact fun hcon => h111 hcon
      | exact fun hcon => h110 hcon
      | exact int16ofNat_ne_neg _ m (by have hq1 := hrdq (pp.2 + 1); have hq2 := hrdq pp.2; omega) hm

/-- C5 counterexample: the well framed frame [ABCDEFGHIJ] carries a name
of exactly 10 bytes immediately followed by ETX; the claim says such a
frame decodes without a command-overflow error, but the parser reports
the overflow: the 10-byte cmd array must also hold the terminator, so
only 9 name bytes fit. -/
theorem c5_counterexample :
    (proto_parse_pkt_buffer false
      (bufOfList [91, 65, 66, 67, 68, 69, 70, 71, 72, 73, 74, 93]) 12 zeroPkt).1 =
      ERR_PROTO_CP_CMD_OVERFLOW := by
  decide

/-- C5 (amended): the parser returns the command-overflow error exactly
when the 10 bytes after the scan stop position are all non-delimiter
bytes and a further readable byte follows them; in particular a name of
10 bytes does overflow, and exhaustion of the buffer during the name
takes priority and reports the missing terminator instead. -/
theorem c5_cmd_overflow_iff (crcE : Bool) (b : Nat → Nat) (len : Nat) (pkt : ProtoPkt)
    (h1 : 0 < len) (h2 : len ≤ 32766) (hf : (findStx b len).1 < len) :
    (proto_parse_pkt_buffer crcE b len pkt).1 = ERR_PROTO_CP_CMD_OVERFLOW ↔
      ((findStx b len).1 + MAX_PROTO_CMD < len ∧
        ∀ k, k < MAX_PROTO_CMD →
          b ((findStx b len).1 + k) ≠ PROTO_PSC ∧ b ((findStx b len).1 + k) ≠ PROTO_ETX) := by
  obtain ⟨d, hd1, hd2, hd3, hd4, hd5, hd6⟩ :=
    copyNameGo_run b (len - (findStx b len).1) pkt.cmd 0 (findStx b len).1 (by decide)
  have hc1 : (copyName b len pkt.cmd 0 (findStx b len).1).2.1 = 0 + d := hd1
  have hc2 : (copyName b len pkt.cmd 0 (findStx b len).1).2.2 = (findStx b len).1 + d := hd2
  have hcple : (copyName b len pkt.cmd 0 (findStx b len).1).2.2 ≤ len :=
    copyName_pbi_le b len pkt.cmd 0 (findStx b len).1 (by omega)
  simp only [MAX_PROTO_CMD] at hd4 ⊢
  unfold proto_parse_pkt_buffer
  dsimp only
  rw [if_neg (show ¬(len = 0) by omega), if_neg (show ¬(len ≤ (findStx b len).1) by omega)]
  by_cases hEFC : len ≤ (copyName b len pkt.cmd 0 (findStx b len).1).2.2
  · rw [if_pos hEFC]
    constructor
    · intro hcon
      exact absurd (show ERR_PROTO_CP_MISSING_EFC = ERR_PROTO_CP_CMD_OVERFLOW from hcon)
        (by decide)
    · intro hrhs
      obtain ⟨hr1, hr2⟩ := hrhs
      exfalso
      rcases hd6 with h | h | h | h
      · omega
      · simp only [MAX_PROTO_CMD] at h
        omega
      · rcases Nat.lt_or_ge d 10 with hdd | hdd
        · exact (hr2 d (by omega)).1 h
        · omega
      · rcases Nat.lt_or_ge d 10 with hdd | hdd
        · exact (hr2 d (by omega)).2 h
        · omega
  · rw [if_neg hEFC]
    by_cases hOV : MAX_PROTO_CMD ≤ (copyName b len pkt.cmd 0 (findStx b len).1).2.1
    · rw [if_pos hOV]
      simp only [MAX_PROTO_CMD] at hOV
      constructor
      · intro _
        refine ⟨by omega, fun k hk => hd5 k (by omega)⟩
      · intro _
        rfl
    · rw [if_neg hOV]
      simp only [MAX_PROTO_CMD] at hOV
      constructor
      · intro hcon
        refine absurd hcon (parse_tail_ne2 crcE b len _ _ ERR_PROTO_CP_CMD_OVERFLOW
          (by decide) (by decide) (by decide) h2 ?_)
        split_ifs
        · exact hcple
        · exact parseParamsGo_pbi_le b len len _ _ (by omega)
        · exact hcple
      · intro hrhs
        obtain ⟨hr1, hr2⟩ := hrhs
        exfalso
        rcases hd6 with h | h | h | h
        · omega
        · simp only [MAX_PROTO_CMD] at h
          omega
        · rcases Nat.lt_or_ge d 10 with hdd | hdd
          · exact (hr2 d (by omega)).1 h
          · omega
        · rcases Nat.lt_or_ge d 10 with hdd | hdd
          · exact (hr2 d (by omega)).2 h
          · omega

theorem c5_cmd_overflow_iff_witness :
    ((proto_parse_pkt_buffer false (bufOfList [91, 65, 66, 93]) 4 zeroPkt).1 =
        ERR_PROTO_CP_CMD_OVERFLOW ↔
      ((findStx (bufOfList [91, 65, 66, 93]) 4).1 + MAX_PROTO_CMD < 4 ∧
        ∀ k, k < MAX_PROTO_CMD →
          bufOfList [91, 65, 66, 93] ((findStx (bufOfList [91, 65, 66, 93]) 4).1 + k) ≠
              PROTO_PSC ∧
            bufOfList [91, 65, 66, 93] ((findStx (bufOfList [91, 65, 66, 93]) 4).1 + k) ≠
              PROTO_ETX)) :=
  c5_cmd_overflow_iff false (bufOfList [91, 65, 66, 93]) 4 zeroPkt (by decide) (by decide)
    (by decide)

/-- takeWhile on a list without zero bytes keeps the whole list. -/
theorem takeWhile_nz (param : List Nat) (hnz : ∀ c ∈ param, c ≠ 0) :
    (param.takeWhile fun c => c != 0) = param := by
  induction param with
  | nil => rfl
  | cons c cs ih =>
    rw [List.takeWhile_cons]
    rw [if_pos (by simp [bne]; exact hnz c (List.mem_cons_self c cs))]
    rw [ih (fun d hd => hnz d (List.mem_cons_of_mem c hd))]

/-- Reading inside the taken prefix reads the original list. -/
theorem getD_take_eq : ∀ (l : List Nat) (n j : Nat), j < n →
    (l.take n).getD j 0 = l.getD j 0 := by
  intro l
  induction l with
  | nil => intro n j _; simp
  | cons c cs ih =>
    intro n j hj
    cases n with
    | zero => omega
    | succ m =>
      rw [List.take_succ_cons]
      cases j with
      | zero => rfl
      | succ k =>
        rw [List.getD_cons_succ, List.getD_cons_succ]
        exact ih m k (by omega)

/-- C6 counterexample: appending a value of exactly 50 bytes to an empty
packet is accepted (return 1), but the stored copy is truncated: strlcpy
with size 50 stores at most 49 value bytes plus the terminator, so byte
49 of the slot is the terminator rather than the value's last byte. -/
theorem c6_counterexample :
    (proto_append_response_pkt_param zeroPkt (List.replicate 50 65)).1 = 1 ∧
    (proto_append_response_pkt_param zeroPkt (List.replicate 50 65)).2.params 0 48 = 65 ∧
    (proto_append_response_pkt_param zeroPkt (List.replicate 50 65)).2.params 0 49 = 0 := by
  decide

/-- C6 (amended): proto_append_response_pkt_param rejects a full packet
with the too-many-parameters error exactly when the count is at the cap,
rejects a value longer than 50 bytes with the parameter-overflow error,
and otherwise accepts, increments the count and returns it - but it
stores at most 49 value bytes: the copy is the value's first
min(length, 49) bytes followed by the terminating zero, so a 50 byte
value is truncated rather than appended intact. -/
theorem c6_append_spec (pkt : ProtoPkt) (param : List Nat) (hnz : ∀ c ∈ param, c ≠ 0) :
    ((proto_append_response_pkt_param pkt param).1 = ERR_PROTO_RB_TOO_MANY_PARAMS ↔
      MAX_PROTO_PARAM_COUNT ≤ pkt.param_count) ∧
    (pkt.param_count < MAX_PROTO_PARAM_COUNT →
      ((proto_append_response_pkt_param pkt param).1 = ERR_PROTO_RB_PARAM_OVERFLOW ↔
        MAX_PROTO_PARAM_LEN < param.length)) ∧
    (pkt.param_count < MAX_PROTO_PARAM_COUNT → param.length ≤ MAX_PROTO_PARAM_LEN →
      (proto_append_response_pkt_param pkt param).1 = ((pkt.param_count + 1 : Nat) : Int) ∧
      (proto_append_response_pkt_param pkt param).2.param_count = pkt.param_count + 1 ∧
      (∀ j, j < min (MAX_PROTO_PARAM_LEN - 1) param.length →
        (proto_append_response_pkt_param pkt param).2.params pkt.param_count j =
          param.getD j 0) ∧
      (proto_append_response_pkt_param pkt param).2.params pkt.param_count
        (min (MAX_PROTO_PARAM_LEN - 1) param.length) = 0) := by
  have hsl : strlenList param = param.length := by
    unfold strlenList
    rw [takeWhile_nz param hnz]
  have hcp : (param.takeWhile fun c => c != 0).take (MAX_PROTO_PARAM_LEN - 1) =
      param.take (MAX_PROTO_PARAM_LEN - 1) := by
    rw [takeWhile_nz param hnz]
  have hcplen : (param.take (MAX_PROTO_PARAM_LEN - 1)).length =
      min (MAX_PROTO_PARAM_LEN - 1) param.length := List.length_take _ _
  unfold proto_append_response_pkt_param
  dsimp only
  rw [hsl, hcp]
  by_cases hcnt : MAX_PROTO_PARAM_COUNT < pkt.param_count + 1
  · rw [if_pos hcnt]
    refine ⟨⟨fun _ => by omega, fun _ => rfl⟩, ?_, ?_⟩
    · intro hlt
      omega
    · intro hlt
      omega
  · rw [if_neg hcnt]
    by_cases hlen : MAX_PROTO_PARAM_LEN < param.length
    · rw [if_pos hlen]
      refine ⟨⟨fun hcon => ?_, fun hcon => by omega⟩, ?_, ?_⟩
      · exact absurd (show ERR_PROTO_RB_PARAM_OVERFLOW = ERR_PROTO_RB_TOO_MANY_PARAMS
          from hcon) (by decide)
      · intro _
        exact ⟨fun _ => hlen, fun _ => rfl⟩
      · intro _ hle
        omega
    · rw [if_neg hlen]
      have hmod : (pkt.param_count + 1) % 256 = pkt.param_count + 1 := by
        simp only [MAX_PROTO_PARAM_COUNT] at hcnt
        omega
      rw [hmod]
      refine ⟨⟨fun hcon => ?_, fun hge => by omega⟩, ?_, ?_⟩
      · exfalso
        have hcon2 : ((pkt.param_count + 1 : Nat) : Int) = ERR_PROTO_RB_TOO_MANY_PARAMS := hcon
        simp only [ERR_PROTO_RB_TOO_MANY_PARAMS] at hcon2
        omega
      · intro _
        constructor
        · intro hcon
          exfalso
          have hcon2 : ((pkt.param_count + 1 : Nat) : Int) = ERR_PROTO_RB_PARAM_OVERFLOW := hcon
          simp only [ERR_PROTO_RB_PARAM_OVERFLOW] at hcon2
          omega
        · intro hgt
          omega
      · intro _ _
        refine ⟨rfl, rfl, ?_, ?_⟩
        · intro j hj
          dsimp only
          rw [if_pos ⟨rfl, by rw [hcplen]; exact hj⟩]
          exact getD_take_eq param (MAX_PROTO_PARAM_LEN - 1) j (by omega)
        · dsimp only
          rw [if_neg (show ¬(pkt.param_count = pkt.param_count ∧
              min (MAX_PROTO_PARAM_LEN - 1) param.length <
                (param.take (MAX_PROTO_PARAM_LEN - 1)).length) from by
            rw [hcplen]
            intro hcon
            omega)]
          rw [if_pos ⟨rfl, by rw [hcplen]⟩]

theorem c6_append_spec_witness :
    ((proto_append_response_pkt_param zeroPkt [70, 70]).1 = ERR_PROTO_RB_TOO_MANY_PARAMS ↔
      MAX_PROTO_PARAM_COUNT ≤ zeroPkt.param_count) ∧
    (zeroPkt.param_count < MAX_PROTO_PARAM_COUNT →
      ((proto_append_response_pkt_param zeroPkt [70, 70]).1 = ERR_PROTO_RB_PARAM_OVERFLOW ↔
        MAX_PROTO_PARAM_LEN < ([70, 70] : List Nat).length)) ∧
    (zeroPkt.param_count < MAX_PROTO_PARAM_COUNT →
      ([70, 70] : List Nat).length ≤ MAX_PROTO_PARAM_LEN →
      (proto_append_response_pkt_param zeroPkt [70, 70]).1 =
        ((zeroPkt.param_count + 1 : Nat) : Int) ∧
      (proto_append_response_pkt_param zeroPkt [70, 70]).2.param_count =
        zeroPkt.param_count + 1 ∧
      (∀ j, j < min (MAX_PROTO_PARAM_LEN - 1) ([70, 70] : List Nat).length →
        (proto_append_response_pkt_param zeroPkt [70, 70]).2.params zeroPkt.param_count j =
          ([70, 70] : List Nat).getD j 0) ∧
      (proto_append_response_pkt_param zeroPkt [70, 70]).2.params zeroPkt.param_count
        (min (MAX_PROTO_PARAM_LEN - 1) ([70, 70] : List Nat).length) = 0) :=
  c6_append_spec zeroPkt [70, 70] (by decide)

/-- C7 counterexample: the repository build defines DISABLE_CRC16, yet
encoding the packet CPV with parameter 0 emits the bytes of
[CPV:0]CE71 CR - the four hex digits CE71 of the frame CRC stand between
ETX and CR, not the claimed bare [CPV:0] CR: the conditional compilation
guard covers only the parser's check, not the encoder's output. -/
theorem c7_counterexample :
    (proto_print_response_pkt (pktOf [67, 80, 86] [[48]])).1 =
      [91, 67, 80, 86, 58, 48, 93, 67, 69, 55, 49, 13] ∧
    (proto_print_response_pkt (pktOf [67, 80, 86] [[48]])).1 ≠
      [91, 67, 80, 86, 58, 48, 93, 13] := by
  decide

/-- C7 (amended): for every packet the encoder emits STX, the name bytes,
a separator followed by the value bytes for each parameter slot, ETX,
then - unconditionally, in every build, including the shipped build with
integrity checking disabled - the frame CRC16 rendered as uppercase hex,
and finally CR. -/
theorem c7_encoder_layout (pkt : ProtoPkt) :
    (proto_print_response_pkt pkt).1 =
      PROTO_STX :: cmdStr pkt ++ flatParams pkt ++ PROTO_ETX :: hexChars (wireCrc pkt) ++
        [PROTO_CR] := by
  rw [print_pkt_eq]

/-- C8 counterexample: the buffer [A:BB ends while parameter bytes are
being copied, before any closing ETX; the claim demands the missing
terminator error, but the parameter loop's exhaustion falls through to
the success return: the call returns 5, the number of bytes consumed. -/
theorem c8_counterexample :
    (proto_parse_pkt_buffer false (bufOfList [91, 65, 58, 66, 66]) 5 zeroPkt).1 = 5 ∧
    0 ≤ (proto_parse_pkt_buffer false (bufOfList [91, 65, 58, 66, 66]) 5 zeroPkt).1 := by
  decide

/-- C8 (amended): exhaustion before a separator or ETX is reported as the
missing terminator error only while the name is being read: if every byte
from the scan stop position to the end of the buffer is a non-delimiter
byte and those bytes fit the name cap region, the parser returns the
missing-terminator error.  Exhaustion once a separator has been seen is
not covered: the parameter loop's fall-through returns success. -/
theorem c8_missing_terminator (crcE : Bool) (b : Nat → Nat) (len : Nat) (pkt : ProtoPkt)
    (h1 : 0 < len) (hf : (findStx b len).1 < len)
    (hnd : ∀ k, k < len - (findStx b len).1 →
      b ((findStx b len).1 + k) ≠ PROTO_PSC ∧ b ((findStx b len).1 + k) ≠ PROTO_ETX)
    (hcap : len - (findStx b len).1 ≤ MAX_PROTO_CMD) :
    (proto_parse_pkt_buffer crcE b len pkt).1 = ERR_PROTO_CP_MISSING_EFC := by
  obtain ⟨d, hd1, hd2, hd3, hd4, hd5, hd6⟩ :=
    copyNameGo_run b (len - (findStx b len).1) pkt.cmd 0 (findStx b len).1 (by decide)
  have hc2 : (copyName b len pkt.cmd 0 (findStx b len).1).2.2 = (findStx b len).1 + d := hd2
  have hEFC : len ≤ (copyName b len pkt.cmd 0 (findStx b len).1).2.2 := by
    rcases hd6 with h | h | h | h
    · omega
    · simp only [MAX_PROTO_CMD] at h hcap
      omega
    · rcases Nat.lt_or_ge d (len - (findStx b len).1) with hlt | hge
      · exact absurd h (hnd d hlt).1
      · omega
    · rcases Nat.lt_or_ge d (len - (findStx b len).1) with hlt | hge
      · exact absurd h (hnd d hlt).2
      · omega
  unfold proto_parse_pkt_buffer
  dsimp only
  rw [if_neg (show ¬(len = 0) by omega), if_neg (show ¬(len ≤ (findStx b len).1) by omega),
    if_pos hEFC]

theorem c8_missing_terminator_witness :
    (proto_parse_pkt_buffer false (bufOfList [91, 67, 80, 86]) 4 zeroPkt).1 =
      ERR_PROTO_CP_MISSING_EFC :=
  c8_missing_terminator false (bufOfList [91, 67, 80, 86]) 4 zeroPkt (by decide) (by decide)
    (by decide) (by decide)

/-- Draining serial input that contains no CR and no NL with the
accumulator reaching (or already at) capacity: the call returns 0,
reports the overflow error once, and leaves the accumulator cleared. -/
theorem procInputGo_nocr (input : List Nat) :
    ∀ (st : AccState) (pkt : ProtoPkt) (emits : List Int),
      (∀ c ∈ input, c ≠ PROTO_CR ∧ c ≠ PROTO_NL) →
      MAX_PROTO_PACKET_LEN ≤ st.cib_len + input.length →
      ∃ f : Nat → Nat,
        procInputGo input st pkt emits =
          ⟨0, [], ⟨0, memset256 f⟩, pkt, emits ++ [ERR_PROTO_CP_CMD_OVERFLOW]⟩ := by
  induction input with
  | nil =>
    intro st pkt emits _ hfull
    refine ⟨st.char_in_buffer, ?_⟩
    simp only [procInputGo]
    rw [if_pos (by simpa using hfull)]
  | cons ich rest ih =>
    intro st pkt emits hnc hfull
    have hich := hnc ich (List.mem_cons_self ich rest)
    simp only [procInputGo]
    rw [if_neg hich.1]
    by_cases happ : st.cib_len < MAX_PROTO_PACKET_LEN ∧ ich ≠ PROTO_CR ∧ ich ≠ PROTO_NL
    · rw [if_pos happ]
      exact ih ⟨st.cib_len + 1, updFn st.char_in_buffer st.cib_len ich⟩ pkt emits
        (fun c hc => hnc c (List.mem_cons_of_mem ich hc))
        (by simp only [List.length_cons] at hfull; show MAX_PROTO_PACKET_LEN ≤ st.cib_len + 1 + rest.length; omega)
    · rw [if_neg happ]
      have hge : MAX_PROTO_PACKET_LEN ≤ st.cib_len := by
        rcases Nat.lt_or_ge st.cib_len MAX_PROTO_PACKET_LEN with h | h
        · exact absurd ⟨h, hich.1, hich.2⟩ happ
        · exact h
      exact ih st pkt emits (fun c hc => hnc c (List.mem_cons_of_mem ich hc)) (by omega)

/-- C9: the accumulator overflow policy: when the serial bytes contain no
terminator and the buffer reaches its 256-byte capacity, proc_input
returns 0, prints exactly one error response reporting the overflow, and
resumes with an empty, zeroed accumulation buffer. -/
theorem c9_buffer_overflow (input : List Nat) (st : AccState) (pkt : ProtoPkt)
    (hnc : ∀ c ∈ input, c ≠ PROTO_CR ∧ c ≠ PROTO_NL)
    (hfull : MAX_PROTO_PACKET_LEN ≤ st.cib_len + input.length) :
    (proc_input input st pkt).ret = 0 ∧
    (proc_input input st pkt).emits = [ERR_PROTO_CP_CMD_OVERFLOW] ∧
    (proc_input input st pkt).acc.cib_len = 0 ∧
    ∀ i, i < MAX_PROTO_PACKET_LEN → (proc_input input st pkt).acc.char_in_buffer i = 0 := by
  obtain ⟨f, hf⟩ := procInputGo_nocr input st pkt [] hnc hfull
  unfold proc_input
  rw [hf]
  refine ⟨rfl, rfl, rfl, ?_⟩
  intro i hi
  show memset256 f i = 0
  unfold memset256
  rw [if_pos hi]

theorem c9_buffer_overflow_witness :
    (proc_input (List.replicate 256 65) ⟨0, fun _ => 0⟩ zeroPkt).ret = 0 ∧
    (proc_input (List.replicate 256 65) ⟨0, fun _ => 0⟩ zeroPkt).emits =
      [ERR_PROTO_CP_CMD_OVERFLOW] ∧
    (proc_input (List.replicate 256 65) ⟨0, fun _ => 0⟩ zeroPkt).acc.cib_len = 0 ∧
    ∀ i, i < MAX_PROTO_PACKET_LEN →
      (proc_input (List.replicate 256 65) ⟨0, fun _ => 0⟩ zeroPkt).acc.char_in_buffer i = 0 :=
  c9_buffer_overflow (List.replicate 256 65) ⟨0, fun _ => 0⟩ zeroPkt
    (fun c hc => by
      rw [List.eq_of_mem_replicate hc]
      exact ⟨by decide, by decide⟩)
    (by rw [List.length_replicate]; decide)

/-- C10: the parser's stores and loads do not all stay inside the fixed
arrays.  In the shallow model the arrays are total functions, so each
out-of-bounds access of the C code is visible at its index: (1) after
copying ten name bytes the terminating zero is stored at cmd index 10,
one past the ten byte cmd array; (2) the ETX check after the parameter
loop reads the buffer at index len, so two buffers that agree on all
indices below len decode to different results; (3) with a stale
param_count of 4 left in the packet, parameter bytes are stored in slot
index 4, past the four parameter slots; (4) a 50 byte parameter value
gets its terminating zero stored at byte index 50, one past the fifty
byte slot. -/
theorem c10_out_of_bounds_accesses :
    ((proto_parse_pkt_buffer false
        (bufOfList [91, 65, 66, 67, 68, 69, 70, 71, 72, 73, 74, 93]) 12
        ⟨fun _ => 42, fun _ _ => 7, 0, 0⟩).2.cmd 10 = 0) ∧
    ((∀ i, i < 5 →
        bufOfList [91, 65, 58, 66, 66] i =
          (fun i2 => if i2 < 5 then bufOfList [91, 65, 58, 66, 66] i2 else 93) i) ∧
      (proto_parse_pkt_buffer false (bufOfList [91, 65, 58, 66, 66]) 5 zeroPkt).1 ≠
        (proto_parse_pkt_buffer false
          (fun i2 => if i2 < 5 then bufOfList [91, 65, 58, 66, 66] i2 else 93) 5
          zeroPkt).1) ∧
    ((proto_parse_pkt_buffer false (bufOfList [91, 65, 58, 66, 93]) 5
        ⟨fun _ => 42, fun _ _ => 7, 4, 0⟩).2.params 4 0 = 66) ∧
    ((proto_parse_pkt_buffer false
        (bufOfList ([91, 65, 58] ++ List.replicate 50 66 ++ [93])) 54
        ⟨fun _ => 42, fun _ _ => 7, 0, 0⟩).2.params 0 50 = 0) := by
  decide
